import Mathlib

/-!
Verification of the FixedLayoutCodec specification for the dq3r-info
repository.  The repository's `src/documentation/dq3_structures/headers/`
files are pure schema documentation (13 C structs with offsets, widths and
base addresses); the codec itself is described only in the specification.
The schema instances below are transcribed from the headers; the codec
operations are modelled from the specification text.
-/

/-- Kind of a field, from the spec data model: plain integer, bit-sub-field
(mask and shift within its containing byte), fixed-length byte array, or
fixed-length terminated string (with its terminator byte value). -/
inductive FieldKind where
  | intField
  | bitField (mask : Nat) (shift : Nat)
  | byteArray
  | termString (term : Nat)
deriving DecidableEq

/-- Modelled from the spec: `FieldSpec` describes one field within a record
schema — name (unique within schema), byte offset, byte width, signedness,
and kind (integer, bit-sub-field, byte array, terminated string). -/
structure FieldSpec where
  name : String
  offset : Nat
  width : Nat
  signed : Bool
  kind : FieldKind
deriving DecidableEq

/-- The number of buffer bytes a field occupies: a bit-sub-field occupies
exactly its one containing byte, every other kind occupies `width` bytes. -/
def FieldSpec.extent (f : FieldSpec) : Nat :=
  match f.kind with
  | .bitField _ _ => 1
  | _ => f.width

/-- Modelled from the spec: `RecordSchema` is an ordered sequence of
`FieldSpec` plus the total record byte length. -/
structure RecordSchema where
  fields : List FieldSpec
  total_length : Nat
deriving DecidableEq

/-- A decoded field value: integer, raw byte sequence, or string (strings
are byte sequences in the game's own character set). -/
inductive Value where
  | intVal (n : Int)
  | bytesVal (bs : List Nat)
  | strVal (s : List Nat)
deriving DecidableEq

/-- Modelled from the spec: a `Record` is a mapping from field name to typed
value, realised as an association list. -/
abbrev Record := List (String × Value)

/-- Modelled from the spec error-handling design: the five codec error
kinds. -/
inductive CodecError where
  | LengthMismatch
  | MissingField
  | ValueOutOfRange
  | IncompleteBitGroup
  | MalformedString
deriving DecidableEq

deriving instance DecidableEq for Except

/-- The `w`-byte slice of `buf` starting at offset `o`. -/
def extract (buf : List Nat) (o w : Nat) : List Nat :=
  (buf.drop o).take w

/-- Overwrite `bs.length` bytes of `buf` starting at offset `o`. -/
def writeAt (buf : List Nat) (o : Nat) (bs : List Nat) : List Nat :=
  buf.take o ++ bs ++ buf.drop (o + bs.length)

/-- Little-endian interpretation of a byte list as an unsigned number. -/
def bytesToNatLE : List Nat → Nat
  | [] => 0
  | b :: bs => b + 256 * bytesToNatLE bs

/-- The `w` little-endian bytes of `n`. -/
def natToBytesLE : Nat → Nat → List Nat
  | 0, _ => []
  | w + 1, n => n % 256 :: natToBytesLE w (n / 256)

/-- The bytes of `bs` strictly before the first occurrence of `term`, or
`none` when `term` does not occur in `bs`. -/
def takeUntil (term : Nat) : List Nat → Option (List Nat)
  | [] => none
  | b :: bs =>
    if b = term then some []
    else (takeUntil term bs).map (fun s => b :: s)

/-- Modelled from the spec: decode one field from the byte slice it
occupies.  Plain integers are little-endian (signed ones two's-complement);
bit-sub-fields shift then mask their containing byte; byte arrays are
copied verbatim; terminated strings take bytes up to the terminator and
fail with `MalformedString` when no terminator occurs within the width. -/
def decodeFieldBytes (f : FieldSpec) (bs : List Nat) : Except CodecError Value :=
  match f.kind with
  | .intField =>
    let n := bytesToNatLE bs
    if f.signed = true ∧ 2 ^ (8 * f.width - 1) ≤ n then
      .ok (.intVal ((n : Int) - 2 ^ (8 * f.width)))
    else
      .ok (.intVal (n : Int))
  | .bitField mask shift =>
    .ok (.intVal (((bs.headD 0) >>> shift) &&& mask))
  | .byteArray => .ok (.bytesVal bs)
  | .termString term =>
    match takeUntil term bs with
    | some s => .ok (.strVal s)
    | none => .error .MalformedString

/-- Decode one field from the full record buffer: read the slice the field
occupies and interpret it per the field kind. -/
def decodeField (f : FieldSpec) (buf : List Nat) : Except CodecError Value :=
  decodeFieldBytes f (extract buf f.offset f.extent)

/-- Decode every field of the list against the buffer, in order. -/
def decodeFields : List FieldSpec → List Nat → Except CodecError Record
  | [], _ => .ok []
  | f :: fs, buf =>
    match decodeField f buf with
    | .error e => .error e
    | .ok v =>
      match decodeFields fs buf with
      | .error e => .error e
      | .ok r => .ok ((f.name, v) :: r)

/-- Modelled from the spec: `decode(schema, buffer)` — fails with
`LengthMismatch` when the buffer length differs from the schema's total
length, otherwise decodes every declared field. -/
def decode (s : RecordSchema) (buf : List Nat) : Except CodecError Record :=
  if buf.length = s.total_length then decodeFields s.fields buf
  else .error .LengthMismatch

/-- Modelled from the spec: produce the `extent` bytes for one field value,
failing with `ValueOutOfRange` whenever the value does not fit the field's
declared bit/byte width (a string value also must leave room for its
terminator and must not itself contain the terminator byte, since such a
value is not representable in the field). -/
def encodeFieldBytes (f : FieldSpec) (v : Value) : Except CodecError (List Nat) :=
  match f.kind, v with
  | .intField, .intVal n =>
    if f.signed = true then
      if -(2 ^ (8 * f.width - 1) : Int) ≤ n ∧ n < 2 ^ (8 * f.width - 1) then
        .ok (natToBytesLE f.width (n % 2 ^ (8 * f.width)).toNat)
      else .error .ValueOutOfRange
    else
      if 0 ≤ n ∧ n < 2 ^ (8 * f.width) then
        .ok (natToBytesLE f.width n.toNat)
      else .error .ValueOutOfRange
  | .bitField mask shift, .intVal n =>
    if 0 ≤ n ∧ n.toNat &&& mask = n.toNat then
      .ok [n.toNat <<< shift]
    else .error .ValueOutOfRange
  | .byteArray, .bytesVal bs =>
    if bs.length ≤ f.width ∧ ∀ b ∈ bs, b < 256 then
      .ok (bs ++ List.replicate (f.width - bs.length) 0)
    else .error .ValueOutOfRange
  | .termString term, .strVal s =>
    if s.length + 1 ≤ f.width ∧ (∀ b ∈ s, b < 256) ∧ term ∉ s then
      .ok (s ++ term :: List.replicate (f.width - (s.length + 1)) 0)
    else .error .ValueOutOfRange
  | _, _ => .error .ValueOutOfRange

/-- Whether a field is a bit-sub-field. -/
def isBitSub (f : FieldSpec) : Bool :=
  match f.kind with
  | .bitField _ _ => true
  | _ => false

/-- The bits of the containing byte a bit-sub-field occupies: its mask
shifted into position (zero for byte-owning fields). -/
def shiftedMask (f : FieldSpec) : Nat :=
  match f.kind with
  | .bitField mask shift => mask <<< shift
  | _ => 0

/-- All bit-sub-fields of a schema declared on the byte at `off`: the
group of sub-fields sharing that byte. -/
def bitGroup (fields : List FieldSpec) (off : Nat) : List FieldSpec :=
  fields.filter (fun g => isBitSub g && g.offset == off)

/-- Modelled from the spec: assemble a shared byte from a zero baseline by
combining every bit-sub-field declared on it.  Each member's value is
checked against its mask (`ValueOutOfRange` when it does not fit) and
merged in at its shift; a member with no record entry is the spec's
`IncompleteBitGroup` condition (inside `encode` that situation is already
reported as `MissingField` by the presence pre-check over all declared
fields, which the spec lists as the error for a record lacking a declared
field). -/
def assembleByte (r : Record) : List FieldSpec → Except CodecError Nat
  | [] => .ok 0
  | g :: gs =>
    match g.kind with
    | .bitField mask shift =>
      match r.lookup g.name with
      | none => .error .IncompleteBitGroup
      | some (.intVal n) =>
        if 0 ≤ n ∧ n.toNat &&& mask = n.toNat then
          match assembleByte r gs with
          | .error e => .error e
          | .ok b => .ok ((n.toNat <<< shift) ||| b)
        else .error .ValueOutOfRange
      | some _ => .error .ValueOutOfRange
    | _ => assembleByte r gs

/-- The bytes one field contributes to the buffer: a byte-owning field
encodes its own value, while a bit-sub-field contributes its whole
containing byte, assembled from every sub-field of its group per the
spec's shared-byte rule (so each member of a group writes the same
assembled byte). -/
def fieldWrite (all : List FieldSpec) (r : Record) (f : FieldSpec) (v : Value) :
    Except CodecError (List Nat) :=
  match f.kind with
  | .bitField _ _ =>
    match assembleByte r (bitGroup all f.offset) with
    | .error e => .error e
    | .ok b => .ok [b]
  | _ => encodeFieldBytes f v

/-- Write every field of the list into the buffer, in order, looking each
value up by field name; a field absent from the record is `MissingField`. -/
def encodeFields (all : List FieldSpec) :
    List FieldSpec → Record → List Nat → Except CodecError (List Nat)
  | [], _, buf => .ok buf
  | f :: fs, r, buf =>
    match r.lookup f.name with
    | none => .error .MissingField
    | some v =>
      match fieldWrite all r f v with
      | .error e => .error e
      | .ok bs => encodeFields all fs r (writeAt buf f.offset bs)

/-- Modelled from the spec: `encode(schema, record)` — fails with
`MissingField` when the record lacks a value for a declared field,
otherwise writes every field at its declared offset into a zero-filled
buffer of the schema's total length, assembling each shared byte from all
the bit-sub-fields declared on it. -/
def encode (s : RecordSchema) (r : Record) : Except CodecError (List Nat) :=
  if s.fields.all (fun f => (r.lookup f.name).isSome) then
    encodeFields s.fields s.fields r (List.replicate s.total_length 0)
  else .error .MissingField

/-- Two fields occupy disjoint byte ranges. -/
def disjointE (f g : FieldSpec) : Prop :=
  f.offset + f.extent ≤ g.offset ∨ g.offset + g.extent ≤ f.offset

instance : DecidableRel disjointE := fun f g => by
  unfold disjointE; exact inferInstance

/-- Two bit-sub-fields sharing a containing byte at disjoint bit
positions — the spec's bit-sub-field overlap exception.  A shared byte is
owned jointly by the sub-fields declared on it and is assembled from a
zero baseline, so no two of them may claim the same bit, and a byte-owning
field may not cover the byte as well. -/
def sharedBitGroup (f g : FieldSpec) : Prop :=
  isBitSub f = true ∧ isBitSub g = true ∧ f.offset = g.offset ∧
  shiftedMask f &&& shiftedMask g = 0

instance : DecidableRel sharedBitGroup := fun f g => by
  unfold sharedBitGroup; exact inferInstance

/-- The permitted relation between two distinct fields of a schema:
disjoint byte ranges, or bit-sub-fields sharing a byte at disjoint bit
positions. -/
def overlapOk (f g : FieldSpec) : Prop := disjointE f g ∨ sharedBitGroup f g

instance : DecidableRel overlapOk := fun f g => by
  unfold overlapOk; exact inferInstance

/-- Sum of the byte extents of a field list. -/
def sumExtents (fs : List FieldSpec) : Nat :=
  (fs.map FieldSpec.extent).sum

/-- Modelled from the spec data-model invariant: no two fields overlap
unless one is a bit-sub-field sharing the byte with the other (at
disjoint bit positions), and the sum of field extents does not exceed the
total record length. -/
def SchemaInvariant (s : RecordSchema) : Prop :=
  List.Pairwise overlapOk s.fields ∧
  sumExtents s.fields ≤ s.total_length

instance (s : RecordSchema) : Decidable (SchemaInvariant s) := by
  unfold SchemaInvariant; exact inferInstance

/-- Well-formedness required of a schema by the codec theorems: the
invariant's pairwise overlap discipline (disjoint fields, or bit-sub-field
groups sharing a byte), every field within the record bounds, and unique
field names (the spec's data model declares names unique within a
schema).  All 13 documented schemas satisfy it. -/
def SchemaWf (s : RecordSchema) : Prop :=
  List.Pairwise overlapOk s.fields ∧
  (∀ f ∈ s.fields, f.offset + f.extent ≤ s.total_length) ∧
  (s.fields.map (fun f => f.name)).Nodup

instance (s : RecordSchema) : Decidable (SchemaWf s) := by
  unfold SchemaWf; exact inferInstance

/-- The record holds a value for the field and that value encodes
successfully. -/
def fieldValid (r : Record) (f : FieldSpec) : Bool :=
  match r.lookup f.name with
  | some v => (encodeFieldBytes f v).toOption.isSome
  | none => false

/-- Base address of the Hero record, from `hero.h` (`HERO_BASE_ADDR`). -/
def HERO_BASE_ADDR : Nat := 0x3925

/-- Size of the Hero record, from `hero.h` (`HERO_SIZE`). -/
def HERO_SIZE : Nat := 60

/-- Base address of the Inventory record, from `inventory.h`. -/
def INVENTORY_BASE_ADDR : Nat := 0x3725

/-- Size of the Inventory record, from `inventory.h`. -/
def INVENTORY_SIZE : Nat := 512

/-- Base addresses of party members #2 through #12, from
`partymember_2.h` … `partymember_12.h`, indexed by member number. -/
def PARTYMEMBER_BASE_ADDR : Nat → Nat
  | 2 => 0x3961
  | 3 => 0x399d
  | 4 => 0x39d9
  | 5 => 0x3A15
  | 6 => 0x3A51
  | 7 => 0x3a8d
  | 8 => 0x3AC9
  | 9 => 0x3B05
  | 10 => 0x3b41
  | 11 => 0x3B7D
  | 12 => 0x3bb9
  | _ => 0

/-- Size of every party-member record, from the `PARTYMEMBER_k_SIZE`
constants (all 60). -/
def PARTYMEMBER_SIZE : Nat := 60

/-- The Hero level field from `hero.h`: `uint8_t Hero_Level`, top 7 bits
are the level (mask `0x7F` after a shift of 1), bottom bit unknown. -/
def heroLevelField : FieldSpec :=
  { name := "Hero_Level", offset := 0, width := 1, signed := false,
    kind := .bitField 0x7F 1 }

/-- The Hero XP field from `hero.h`: `uint32_t Hero_XP`. -/
def heroXPField : FieldSpec :=
  { name := "Hero_XP", offset := 1, width := 4, signed := false,
    kind := .intField }

/-- The Hero strength field from `hero.h`: `uint8_t Hero_Strength`. -/
def heroStrengthField : FieldSpec :=
  { name := "Hero_Strength", offset := 13, width := 1, signed := false,
    kind := .intField }

/-- The Hero name field from `hero.h`: `char Hero_Name[5]`, 4 characters
max, terminated by `0xAC`. -/
def heroNameField : FieldSpec :=
  { name := "Hero_Name", offset := 18, width := 5, signed := false,
    kind := .termString 0xAC }

/-- The Hero schema, transcribed field by field from the `Hero_t` struct of
`hero.h`: sequential packed offsets, 60-byte record. -/
def Hero_t : RecordSchema :=
  { fields :=
      [ heroLevelField,
        heroXPField,
        { name := "HP_Max", offset := 5, width := 2, signed := false, kind := .intField },
        { name := "Hero_HP", offset := 7, width := 2, signed := false, kind := .intField },
        { name := "MP_Max", offset := 9, width := 2, signed := false, kind := .intField },
        { name := "Hero_MP", offset := 11, width := 2, signed := false, kind := .intField },
        heroStrengthField,
        { name := "Hero_Agility", offset := 14, width := 1, signed := false, kind := .intField },
        { name := "Hero_Stamina", offset := 15, width := 1, signed := false, kind := .intField },
        { name := "Hero_Wisdom", offset := 16, width := 1, signed := false, kind := .intField },
        { name := "Hero_Luck", offset := 17, width := 1, signed := false, kind := .intField },
        heroNameField,
        { name := "Hero_Spells", offset := 23, width := 1, signed := false, kind := .intField },
        { name := "Bag_Number_Equiped", offset := 24, width := 1, signed := false, kind := .intField },
        { name := "Bag_Number_Carried", offset := 25, width := 1, signed := false, kind := .intField },
        { name := "Bag_Items", offset := 26, width := 1, signed := false, kind := .intField } ],
    total_length := 60 }

/-- The fields of a party-member schema with name prefix `p`, transcribed
from the `PartyMember_k_t` structs for k other than 5 (like `Hero_t` but
without a spells field, 26 declared bytes in a 60-byte record; #5 alone
also declares a spells field and has its own field list below). -/
def pmFields (p : String) : List FieldSpec :=
  [ { name := p ++ "_Level", offset := 0, width := 1, signed := false, kind := .bitField 0x7F 1 },
    { name := p ++ "_XP", offset := 1, width := 4, signed := false, kind := .intField },
    { name := p ++ "_HP_Max", offset := 5, width := 2, signed := false, kind := .intField },
    { name := p ++ "_HP", offset := 7, width := 2, signed := false, kind := .intField },
    { name := p ++ "_MP_Max", offset := 9, width := 2, signed := false, kind := .intField },
    { name := p ++ "_MP", offset := 11, width := 2, signed := false, kind := .intField },
    { name := p ++ "_Strength", offset := 13, width := 1, signed := false, kind := .intField },
    { name := p ++ "_Agility", offset := 14, width := 1, signed := false, kind := .intField },
    { name := p ++ "_Stamina", offset := 15, width := 1, signed := false, kind := .intField },
    { name := p ++ "_Wisdom", offset := 16, width := 1, signed := false, kind := .intField },
    { name := p ++ "_Luck", offset := 17, width := 1, signed := false, kind := .intField },
    { name := p ++ "_Name", offset := 18, width := 5, signed := false, kind := .termString 0xAC },
    { name := p ++ "_Bag_Number_Equiped", offset := 23, width := 1, signed := false, kind := .intField },
    { name := p ++ "_Bag_Number_Carried", offset := 24, width := 1, signed := false, kind := .intField },
    { name := p ++ "_Bag_Items", offset := 25, width := 1, signed := false, kind := .intField } ]

/-- Schema of `PartyMember_2_t` from `partymember_2.h`. -/
def PartyMember_2_t : RecordSchema := { fields := pmFields "2", total_length := 60 }

/-- Schema of `PartyMember_3_t` from `partymember_3.h`. -/
def PartyMember_3_t : RecordSchema := { fields := pmFields "3", total_length := 60 }

/-- Schema of `PartyMember_4_t` from `partymember_4.h`. -/
def PartyMember_4_t : RecordSchema := { fields := pmFields "4", total_length := 60 }

/-- Schema of `PartyMember_5_t` from `partymember_5.h`: unlike the other
party members it declares a `5_Spells` field between the name and the bag
fields, exactly like `Hero_t` (16 fields, 27 declared bytes in 60). -/
def PartyMember_5_t : RecordSchema :=
  { fields :=
      [ { name := "5_Level", offset := 0, width := 1, signed := false, kind := .bitField 0x7F 1 },
        { name := "5_XP", offset := 1, width := 4, signed := false, kind := .intField },
        { name := "5_HP_Max", offset := 5, width := 2, signed := false, kind := .intField },
        { name := "5_HP", offset := 7, width := 2, signed := false, kind := .intField },
        { name := "5_MP_Max", offset := 9, width := 2, signed := false, kind := .intField },
        { name := "5_MP", offset := 11, width := 2, signed := false, kind := .intField },
        { name := "5_Strength", offset := 13, width := 1, signed := false, kind := .intField },
        { name := "5_Agility", offset := 14, width := 1, signed := false, kind := .intField },
        { name := "5_Stamina", offset := 15, width := 1, signed := false, kind := .intField },
        { name := "5_Wisdom", offset := 16, width := 1, signed := false, kind := .intField },
        { name := "5_Luck", offset := 17, width := 1, signed := false, kind := .intField },
        { name := "5_Name", offset := 18, width := 5, signed := false, kind := .termString 0xAC },
        { name := "5_Spells", offset := 23, width := 1, signed := false, kind := .intField },
        { name := "5_Bag_Number_Equiped", offset := 24, width := 1, signed := false, kind := .intField },
        { name := "5_Bag_Number_Carried", offset := 25, width := 1, signed := false, kind := .intField },
        { name := "5_Bag_Items", offset := 26, width := 1, signed := false, kind := .intField } ],
    total_length := 60 }

/-- Schema of `PartyMember_6_t` from `partymember_6.h`. -/
def PartyMember_6_t : RecordSchema := { fields := pmFields "6", total_length := 60 }

/-- Schema of `PartyMember_7_t` from `partymember_7.h`. -/
def PartyMember_7_t : RecordSchema := { fields := pmFields "7", total_length := 60 }

/-- Schema of `PartyMember_8_t` from `partymember_8.h`. -/
def PartyMember_8_t : RecordSchema := { fields := pmFields "8", total_length := 60 }

/-- Schema of `PartyMember_9_t` from `partymember_9.h`. -/
def PartyMember_9_t : RecordSchema := { fields := pmFields "9", total_length := 60 }

/-- Schema of `PartyMember_10_t` from `partymember_10.h`. -/
def PartyMember_10_t : RecordSchema := { fields := pmFields "10", total_length := 60 }

/-- Schema of `PartyMember_11_t` from `partymember_11.h`. -/
def PartyMember_11_t : RecordSchema := { fields := pmFields "11", total_length := 60 }

/-- Schema of `PartyMember_12_t` from `partymember_12.h`. -/
def PartyMember_12_t : RecordSchema := { fields := pmFields "12", total_length := 60 }

/-- Schema of `Inventory_t` from `inventory.h`: `uint8_t Bag_Items` then
`uint16_t Items_Amounts`, in a 512-byte record. -/
def Inventory_t : RecordSchema :=
  { fields :=
      [ { name := "Bag_Items", offset := 0, width := 1, signed := false, kind := .intField },
        { name := "Items_Amounts", offset := 1, width := 2, signed := false, kind := .intField } ],
    total_length := 512 }

theorem extract_getElem? (buf : List Nat) (o w j : Nat) :
    (extract buf o w)[j]? = if j < w then buf[o + j]? else none := by
  simp [extract, List.getElem?_take, List.getElem?_drop]

theorem extract_length (buf : List Nat) (o w : Nat) (hb : o + w ≤ buf.length) :
    (extract buf o w).length = w := by
  simp only [extract, List.length_take, List.length_drop]
  omega

theorem writeAt_length (buf bs : List Nat) (o : Nat) (hb : o + bs.length ≤ buf.length) :
    (writeAt buf o bs).length = buf.length := by
  simp only [writeAt, List.length_append, List.length_take, List.length_drop]
  omega

theorem writeAt_getElem? (buf bs : List Nat) (o i : Nat) (hb : o + bs.length ≤ buf.length) :
    (writeAt buf o bs)[i]? =
      if i < o then buf[i]?
      else if i < o + bs.length then bs[i - o]?
      else buf[i]? := by
  have ht : (buf.take o).length = o := by
    simp only [List.length_take]
    omega
  have hA : (buf.take o ++ bs).length = o + bs.length := by
    simp only [List.length_append, ht]
  unfold writeAt
  rw [List.getElem?_append, List.getElem?_append, List.getElem?_take,
    List.getElem?_drop, ht, hA]
  by_cases h1 : i < o
  · simp only [if_pos h1, if_pos (show i < o + bs.length by omega)]
  · simp only [if_neg h1]
    by_cases h2 : i < o + bs.length
    · simp only [if_pos h2]
    · simp only [if_neg h2]
      congr 1
      omega

theorem extract_writeAt_self (buf bs : List Nat) (o : Nat)
    (hb : o + bs.length ≤ buf.length) :
    extract (writeAt buf o bs) o bs.length = bs := by
  apply List.ext_getElem?
  intro j
  rw [extract_getElem?]
  by_cases hj : j < bs.length
  · rw [if_pos hj, writeAt_getElem? _ _ _ _ hb, if_neg (by omega), if_pos (by omega)]
    congr 1
    omega
  · rw [if_neg hj]
    exact (List.getElem?_eq_none (by omega)).symm

theorem extract_writeAt_disjoint (buf bs : List Nat) (o1 w1 o2 : Nat)
    (h : o2 + bs.length ≤ o1 ∨ o1 + w1 ≤ o2)
    (hb : o2 + bs.length ≤ buf.length) :
    extract (writeAt buf o2 bs) o1 w1 = extract buf o1 w1 := by
  apply List.ext_getElem?
  intro j
  rw [extract_getElem?, extract_getElem?]
  by_cases hj : j < w1
  · rw [if_pos hj, if_pos hj, writeAt_getElem? _ _ _ _ hb]
    rcases h with h | h
    · rw [if_neg (by omega), if_neg (by omega)]
    · rw [if_pos (by omega)]
  · rw [if_neg hj, if_neg hj]

theorem natToBytesLE_length (w n : Nat) : (natToBytesLE w n).length = w := by
  induction w generalizing n with
  | zero => rfl
  | succ k ih => simp [natToBytesLE, ih]

theorem natToBytesLE_roundtrip (w n : Nat) (h : n < 2 ^ (8 * w)) :
    bytesToNatLE (natToBytesLE w n) = n := by
  induction w generalizing n with
  | zero =>
    interval_cases n
    rfl
  | succ k ih =>
    have hlt : n / 256 < 2 ^ (8 * k) := by
      rw [Nat.div_lt_iff_lt_mul (by norm_num)]
      calc n < 2 ^ (8 * (k + 1)) := h
        _ = 2 ^ (8 * k) * 256 := by rw [show 8 * (k + 1) = 8 * k + 8 by ring, pow_add]; norm_num
    simp only [natToBytesLE, bytesToNatLE, ih _ hlt]
    omega

theorem takeUntil_append (term : Nat) (s rest : List Nat) (h : term ∉ s) :
    takeUntil term (s ++ term :: rest) = some s := by
  induction s with
  | nil => simp [takeUntil]
  | cons b s' ih =>
    have hb : b ≠ term := by
      intro hbt
      exact h (hbt ▸ List.mem_cons_self b s')
    have hs' : term ∉ s' := fun hm => h (List.mem_cons_of_mem b hm)
    simp [takeUntil, hb, ih hs']

theorem takeUntil_eq_none_iff (term : Nat) (bs : List Nat) :
    takeUntil term bs = none ↔ term ∉ bs := by
  induction bs with
  | nil => simp [takeUntil]
  | cons b bs' ih =>
    by_cases hb : b = term
    · subst hb
      simp [takeUntil]
    · have hb2 : term ≠ b := fun hx => hb hx.symm
      simp [takeUntil, hb, ih, List.mem_cons, hb2]

theorem two_pow_le_helper (w : Nat) : 2 ^ (8 * w) ≤ 2 * 2 ^ (8 * w - 1) := by
  cases w with
  | zero => decide
  | succ k =>
    rw [show 8 * (k + 1) = 8 * k + 8 by ring]
    rw [show 8 * k + 8 - 1 = 8 * k + 7 by omega, pow_succ 2 (8 * k + 7)]
    omega
theorem encodeFieldBytes_length (f : FieldSpec) (v : Value) (bs : List Nat)
    (h : encodeFieldBytes f v = .ok bs) : bs.length = f.extent := by
  obtain ⟨nm, off, w, sg, k⟩ := f
  cases k <;> cases v <;>
      simp only [encodeFieldBytes, FieldSpec.extent] at h ⊢ <;>
    try exact Except.noConfusion h
  all_goals
    split_ifs at h <;>
      first
        | exact Except.noConfusion h
        | (injection h with h
           subst h
           simp [natToBytesLE_length]
           done)
        | (injection h with h
           subst h
           simp only [List.length_append, List.length_cons, List.length_replicate]
           omega)
theorem decodeFieldBytes_roundtrip (f : FieldSpec) (v : Value) (bs : List Nat)
    (h : encodeFieldBytes f v = .ok bs) :
    ∃ v2, decodeFieldBytes f bs = .ok v2 ∧ encodeFieldBytes f v2 = .ok bs := by
  obtain ⟨nm, off, w, sg, k⟩ := f
  cases k <;> cases v <;>
      simp only [encodeFieldBytes] at h <;>
    try exact Except.noConfusion h
  case mk.intField.intVal n =>
    by_cases hs : sg = true
    · rw [if_pos hs] at h
      split_ifs at h with hc
      injection h with h
      have hpos : (0 : Int) < 2 ^ (8 * w) := by positivity
      have hnn : (0 : Int) ≤ n % 2 ^ (8 * w) := Int.emod_nonneg n (by positivity)
      have hltI : n % 2 ^ (8 * w) < 2 ^ (8 * w) := Int.emod_lt_of_pos n hpos
      have hconv : ∀ e : Nat, ((2 : Int) ^ e) = ((2 ^ e : Nat) : Int) := by
        intro e
        push_cast
        ring
      have hult : (n % 2 ^ (8 * w)).toNat < 2 ^ (8 * w) := by
        rw [Int.toNat_lt hnn]
        exact_mod_cast hltI
      subst h
      simp only [decodeFieldBytes, natToBytesLE_roundtrip _ _ hult]
      set u : Nat := (n % 2 ^ (8 * w)).toNat with hu
      have hKA : 2 ^ (8 * w) ≤ 2 * 2 ^ (8 * w - 1) := two_pow_le_helper w
      have hApos : 0 < 2 ^ (8 * w - 1) := Nat.two_pow_pos (8 * w - 1)
      by_cases hc2 : sg = true ∧ 2 ^ (8 * w - 1) ≤ u
      · rw [if_pos hc2]
        refine ⟨.intVal ((u : Int) - 2 ^ (8 * w)), rfl, ?_⟩
        simp only [encodeFieldBytes, if_pos hs]
        have hcond : -(2 : Int) ^ (8 * w - 1) ≤ (u : Int) - 2 ^ (8 * w) ∧
            (u : Int) - 2 ^ (8 * w) < 2 ^ (8 * w - 1) := by
          rw [hconv (8 * w - 1), hconv (8 * w)]
          have h22 := hc2.2
          omega
        rw [if_pos hcond]
        have he : ((u : Int) - 2 ^ (8 * w)) % 2 ^ (8 * w) = (u : Int) % 2 ^ (8 * w) := by
          rw [sub_eq_add_neg, show -((2 : Int) ^ (8 * w)) = 2 ^ (8 * w) * (-1) by ring]
          exact Int.add_mul_emod_self_left (u : Int) (2 ^ (8 * w)) (-1)
        have hx : (((u : Int) - 2 ^ (8 * w)) % 2 ^ (8 * w)).toNat = u := by
          rw [he, Int.emod_eq_of_lt (by positivity) (by rw [hconv]; exact_mod_cast hult),
            Int.toNat_natCast]
        rw [hx]
      · rw [if_neg hc2]
        have hc2' : u < 2 ^ (8 * w - 1) := by
          rcases not_and_or.mp hc2 with hbad | hlt
          · exact absurd hs hbad
          · omega
        refine ⟨.intVal (u : Int), rfl, ?_⟩
        simp only [encodeFieldBytes, if_pos hs]
        have hcond : -(2 : Int) ^ (8 * w - 1) ≤ (u : Int) ∧ (u : Int) < 2 ^ (8 * w - 1) := by
          rw [hconv (8 * w - 1)]
          omega
        rw [if_pos hcond]
        have hx : ((u : Int) % 2 ^ (8 * w)).toNat = u := by
          rw [Int.emod_eq_of_lt (by positivity) (by rw [hconv]; exact_mod_cast hult),
            Int.toNat_natCast]
        rw [hx]
    · rw [if_neg hs] at h
      split_ifs at h with hc
      injection h with h
      have hnt : n.toNat < 2 ^ (8 * w) := by
        rw [Int.toNat_lt hc.1]
        exact_mod_cast hc.2
      subst h
      simp only [decodeFieldBytes, natToBytesLE_roundtrip _ _ hnt]
      rw [if_neg (fun hand => hs hand.1)]
      refine ⟨.intVal (n.toNat : Int), rfl, ?_⟩
      simp only [encodeFieldBytes, if_neg hs]
      have hcond : (0 : Int) ≤ (n.toNat : Int) ∧ (n.toNat : Int) < 2 ^ (8 * w) := by
        refine ⟨by positivity, ?_⟩
        calc (n.toNat : Int) = n := Int.toNat_of_nonneg hc.1
          _ < 2 ^ (8 * w) := hc.2
      rw [if_pos hcond, Int.toNat_natCast]
  case mk.bitField.intVal mask shift n =>
    split_ifs at h with hc
    injection h with h
    subst h
    have hsr : (n.toNat <<< shift) >>> shift = n.toNat := by
      rw [Nat.shiftLeft_eq, Nat.shiftRight_eq_div_pow]
      exact Nat.mul_div_cancel n.toNat (Nat.two_pow_pos shift)
    refine ⟨.intVal (n.toNat : Int), ?_, ?_⟩
    · simp only [decodeFieldBytes, List.headD_cons, hsr, hc.2]
    · simp only [encodeFieldBytes]
      have hcond : (0 : Int) ≤ (n.toNat : Int) ∧
          ((n.toNat : Int)).toNat &&& mask = ((n.toNat : Int)).toNat := by
        refine ⟨by positivity, ?_⟩
        rw [Int.toNat_natCast]
        exact hc.2
      rw [if_pos hcond, Int.toNat_natCast]
  case mk.byteArray.bytesVal bs0 =>
    split_ifs at h with hc
    injection h with h
    subst h
    refine ⟨.bytesVal (bs0 ++ List.replicate (w - bs0.length) 0), rfl, ?_⟩
    simp only [encodeFieldBytes]
    have hlen : (bs0 ++ List.replicate (w - bs0.length) 0).length = w := by
      simp only [List.length_append, List.length_replicate]
      omega
    have hcond : (bs0 ++ List.replicate (w - bs0.length) 0).length ≤ w ∧
        ∀ b ∈ bs0 ++ List.replicate (w - bs0.length) 0, b < 256 := by
      refine ⟨le_of_eq hlen, ?_⟩
      intro b hb
      rcases List.mem_append.mp hb with hb | hb
      · exact hc.2 b hb
      · rw [List.eq_of_mem_replicate hb]
        norm_num
    rw [if_pos hcond, hlen]
    simp
  case mk.termString.strVal term s =>
    split_ifs at h with hc
    injection h with h
    subst h
    refine ⟨.strVal s, ?_, ?_⟩
    · simp only [decodeFieldBytes, takeUntil_append term s _ hc.2.2]
    · simp only [encodeFieldBytes]
      rw [if_pos hc]
theorem decodeFieldBytes_err (f : FieldSpec) (bs : List Nat) (e : CodecError)
    (h : decodeFieldBytes f bs = .error e) : e = .MalformedString := by
  obtain ⟨nm, off, w, sg, k⟩ := f
  cases k <;> simp only [decodeFieldBytes] at h
  case intField =>
    split_ifs at h
  case bitField mask shift =>
    exact Except.noConfusion h
  case byteArray =>
    exact Except.noConfusion h
  case termString term =>
    cases ht : takeUntil term bs with
    | some s =>
      simp only [ht] at h
      exact Except.noConfusion h
    | none =>
      simp only [ht] at h
      injection h with h
      exact h.symm

theorem decodeFields_err (fields : List FieldSpec) (buf : List Nat) (e : CodecError)
    (h : decodeFields fields buf = .error e) : e = .MalformedString := by
  induction fields with
  | nil => exact Except.noConfusion h
  | cons f fs ih =>
    simp only [decodeFields] at h
    cases hd : decodeField f buf with
    | error e2 =>
      simp only [hd] at h
      injection h with h
      exact h ▸ decodeFieldBytes_err f _ e2 hd
    | ok v =>
      simp only [hd] at h
      cases hr : decodeFields fs buf with
      | error e2 =>
        simp only [hr] at h
        injection h with h
        subst h
        exact ih hr
      | ok r =>
        simp only [hr] at h
        exact Except.noConfusion h

theorem decodeFields_ok_field (fields : List FieldSpec) (buf : List Nat) (r : Record)
    (h : decodeFields fields buf = .ok r) :
    ∀ f ∈ fields, ∃ v, decodeField f buf = .ok v := by
  induction fields generalizing r with
  | nil => intro f hf; exact absurd hf (List.not_mem_nil f)
  | cons f fs ih =>
    intro g hg
    simp only [decodeFields] at h
    cases hd : decodeField f buf with
    | error e => simp only [hd] at h; exact Except.noConfusion h
    | ok v =>
      simp only [hd] at h
      cases hr : decodeFields fs buf with
      | error e => simp only [hr] at h; exact Except.noConfusion h
      | ok r2 =>
        rcases List.mem_cons.mp hg with hgf | hgs
        · exact ⟨v, hgf ▸ hd⟩
        · exact ih r2 hr g hgs

theorem encodeFieldBytes_err (f : FieldSpec) (v : Value) (e : CodecError)
    (h : encodeFieldBytes f v = .error e) : e = .ValueOutOfRange := by
  obtain ⟨nm, off, w, sg, k⟩ := f
  cases k <;> cases v <;> simp only [encodeFieldBytes] at h <;>
    first
      | (injection h with h; exact h.symm)
      | skip
  all_goals
    split_ifs at h <;>
      first
        | exact Except.noConfusion h
        | (injection h with h; exact h.symm)

theorem lor_land_distrib (x y m : Nat) :
    (x ||| y) &&& m = (x &&& m) ||| (y &&& m) := by
  apply Nat.eq_of_testBit_eq
  intro i
  simp only [Nat.testBit_and, Nat.testBit_or]
  cases x.testBit i <;> cases y.testBit i <;> cases m.testBit i <;> rfl

theorem lor_shiftRight_and (x y m s : Nat) :
    ((x ||| y) >>> s) &&& m = ((x >>> s) &&& m) ||| ((y >>> s) &&& m) := by
  apply Nat.eq_of_testBit_eq
  intro i
  simp only [Nat.testBit_and, Nat.testBit_or, Nat.testBit_shiftRight]
  cases x.testBit (s + i) <;> cases y.testBit (s + i) <;> cases m.testBit i <;> rfl

theorem land_shiftLeft (a b s : Nat) :
    (a &&& b) <<< s = (a <<< s) &&& (b <<< s) := by
  apply Nat.eq_of_testBit_eq
  intro i
  simp only [Nat.testBit_and, Nat.testBit_shiftLeft]
  cases decide (s ≤ i) <;> cases a.testBit (i - s) <;> cases b.testBit (i - s) <;> rfl

theorem land_shift_zero (x m s : Nat) (hx : x &&& (m <<< s) = 0) :
    (x >>> s) &&& m = 0 := by
  apply Nat.eq_of_testBit_eq
  intro i
  have hbit := congrArg (fun t => t.testBit (s + i)) hx
  simp only [Nat.testBit_and, Nat.testBit_shiftLeft, Nat.zero_testBit,
    decide_eq_true_eq, Nat.le_add_right, decide_True, Bool.true_and,
    Nat.add_sub_cancel_left s i] at hbit
  simp only [Nat.testBit_and, Nat.testBit_shiftRight, Nat.zero_testBit]
  exact hbit

theorem shiftLeft_shiftRight_self (v s : Nat) : (v <<< s) >>> s = v := by
  rw [Nat.shiftLeft_eq, Nat.shiftRight_eq_div_pow]
  exact Nat.mul_div_cancel v (Nat.two_pow_pos s)

theorem shift_extract_self (v m s : Nat) (hv : v &&& m = v) :
    ((v <<< s) >>> s) &&& m = v := by
  rw [shiftLeft_shiftRight_self, hv]

theorem assembleByte_cons_ok (r : Record) (g : FieldSpec) (gs : List FieldSpec) (b : Nat)
    (h : assembleByte r (g :: gs) = .ok b) :
    (∃ mask shift n b2, g.kind = .bitField mask shift ∧
      r.lookup g.name = some (.intVal n) ∧
      (0 ≤ n ∧ n.toNat &&& mask = n.toNat) ∧
      assembleByte r gs = .ok b2 ∧ b = (n.toNat <<< shift) ||| b2) ∨
    (isBitSub g = false ∧ assembleByte r gs = .ok b) := by
  cases hk : g.kind with
  | bitField mask shift =>
    simp only [assembleByte, hk] at h
    cases hl : r.lookup g.name with
    | none =>
      simp only [hl] at h
      exact Except.noConfusion h
    | some v =>
      cases v with
      | intVal n =>
        simp only [hl] at h
        split_ifs at h with hc
        cases ha : assembleByte r gs with
        | error e =>
          simp only [ha] at h
          exact Except.noConfusion h
        | ok b2 =>
          simp only [ha] at h
          injection h with h
          exact Or.inl ⟨mask, shift, n, b2, rfl, rfl, hc, rfl, h.symm⟩
      | bytesVal bs =>
        simp only [hl] at h
        exact Except.noConfusion h
      | strVal s2 =>
        simp only [hl] at h
        exact Except.noConfusion h
  | intField =>
    simp only [assembleByte, hk] at h
    exact Or.inr ⟨by simp [isBitSub, hk], h⟩
  | byteArray =>
    simp only [assembleByte, hk] at h
    exact Or.inr ⟨by simp [isBitSub, hk], h⟩
  | termString term =>
    simp only [assembleByte, hk] at h
    exact Or.inr ⟨by simp [isBitSub, hk], h⟩

theorem assembleByte_land_zero (r : Record) (G : List FieldSpec) (M b : Nat)
    (hm : ∀ g ∈ G, shiftedMask g &&& M = 0)
    (h : assembleByte r G = .ok b) : b &&& M = 0 := by
  induction G generalizing b with
  | nil =>
    injection h with h
    subst h
    exact Nat.zero_and M
  | cons g gs ih =>
    have htail : ∀ g2 ∈ gs, shiftedMask g2 &&& M = 0 :=
      fun g2 hg2 => hm g2 (List.mem_cons_of_mem g hg2)
    rcases assembleByte_cons_ok r g gs b h with
      ⟨mask, shift, n, b2, hk, hl, hc, ha, hb⟩ | ⟨hnb, ha⟩
    · subst hb
      have hmg := hm g (List.mem_cons_self g gs)
      rw [shiftedMask, hk] at hmg
      have h1 : (n.toNat <<< shift) &&& M = 0 := by
        calc (n.toNat <<< shift) &&& M
            = ((n.toNat &&& mask) <<< shift) &&& M := by rw [hc.2]
          _ = ((n.toNat <<< shift) &&& (mask <<< shift)) &&& M := by rw [land_shiftLeft]
          _ = (n.toNat <<< shift) &&& ((mask <<< shift) &&& M) := Nat.land_assoc _ _ _
          _ = (n.toNat <<< shift) &&& 0 := by rw [hmg]
          _ = 0 := Nat.and_zero _
      rw [lor_land_distrib, h1, ih b2 htail ha]
      exact Nat.zero_or 0
    · exact ih b htail ha

theorem assembleByte_member_val (r : Record) (G : List FieldSpec) (b : Nat)
    (h : assembleByte r G = .ok b) :
    ∀ g ∈ G, ∀ mask shift, g.kind = .bitField mask shift →
      ∃ n, r.lookup g.name = some (.intVal n) ∧ 0 ≤ n ∧ n.toNat &&& mask = n.toNat := by
  induction G generalizing b with
  | nil =>
    intro g hg
    exact absurd hg (List.not_mem_nil g)
  | cons g0 gs ih =>
    intro g hg mask shift hk
    rcases assembleByte_cons_ok r g0 gs b h with
      ⟨mask0, shift0, n0, b2, hk0, hl0, hc0, ha, hb⟩ | ⟨hnb, ha⟩
    · rcases List.mem_cons.mp hg with hgf | hgs
      · subst hgf
        rw [hk] at hk0
        injection hk0 with hm hs
        subst hm
        exact ⟨n0, hl0, hc0⟩
      · exact ih b2 ha g hgs mask shift hk
    · rcases List.mem_cons.mp hg with hgf | hgs
      · subst hgf
        rw [isBitSub, hk] at hnb
        exact Bool.noConfusion hnb
      · exact ih b ha g hgs mask shift hk

theorem assembleByte_extract (r : Record) (G : List FieldSpec) (b : Nat)
    (hpw : G.Pairwise (fun f g => shiftedMask f &&& shiftedMask g = 0))
    (h : assembleByte r G = .ok b) :
    ∀ g ∈ G, ∀ mask shift n, g.kind = .bitField mask shift →
      r.lookup g.name = some (.intVal n) → (b >>> shift) &&& mask = n.toNat := by
  induction G generalizing b with
  | nil =>
    intro g hg
    exact absurd hg (List.not_mem_nil g)
  | cons g0 gs ih =>
    rw [List.pairwise_cons] at hpw
    obtain ⟨hpw0, hpw2⟩ := hpw
    intro g hg mask shift n hk hl
    rcases assembleByte_cons_ok r g0 gs b h with
      ⟨mask0, shift0, n0, b2, hk0, hl0, hc0, ha, hb⟩ | ⟨hnb, ha⟩
    · subst hb
      rcases List.mem_cons.mp hg with hgf | hgs
      · subst hgf
        rw [hk] at hk0
        injection hk0 with hm hs
        subst hm
        subst hs
        rw [hl] at hl0
        injection hl0 with hl0
        injection hl0 with hl0
        subst hl0
        have hz : b2 &&& (mask <<< shift) = 0 := by
          apply assembleByte_land_zero r gs _ b2 ?_ ha
          intro g2 hg2
          have := hpw0 g2 hg2
          rw [shiftedMask, hk] at this
          rw [Nat.land_comm]
          exact this
        rw [lor_shiftRight_and, shift_extract_self _ _ _ hc0.2, land_shift_zero b2 mask shift hz,
          Nat.or_zero]
      · have hz0 : (n0.toNat <<< shift0) &&& (mask <<< shift) = 0 := by
          have hd := hpw0 g hgs
          rw [shiftedMask, hk0, shiftedMask, hk] at hd
          calc (n0.toNat <<< shift0) &&& (mask <<< shift)
              = ((n0.toNat &&& mask0) <<< shift0) &&& (mask <<< shift) := by rw [hc0.2]
            _ = ((n0.toNat <<< shift0) &&& (mask0 <<< shift0)) &&& (mask <<< shift) := by
                rw [land_shiftLeft]
            _ = (n0.toNat <<< shift0) &&& ((mask0 <<< shift0) &&& (mask <<< shift)) :=
                Nat.land_assoc _ _ _
            _ = (n0.toNat <<< shift0) &&& 0 := by rw [hd]
            _ = 0 := Nat.and_zero _
        rw [lor_shiftRight_and, land_shift_zero _ mask shift hz0, Nat.zero_or]
        exact ih b2 hpw2 ha g hgs mask shift n hk hl
    · rcases List.mem_cons.mp hg with hgf | hgs
      · subst hgf
        rw [isBitSub, hk] at hnb
        exact Bool.noConfusion hnb
      · exact ih b hpw2 ha g hgs mask shift n hk hl

theorem assembleByte_congr_ok (r r2 : Record) (G : List FieldSpec) (b : Nat)
    (h : assembleByte r G = .ok b)
    (heq : ∀ g ∈ G, ∀ mask shift, g.kind = .bitField mask shift →
      ∃ n, r.lookup g.name = some (.intVal n) ∧
        r2.lookup g.name = some (.intVal ((n.toNat : Nat) : Int))) :
    assembleByte r2 G = .ok b := by
  induction G generalizing b with
  | nil => exact h
  | cons g gs ih =>
    have htail : ∀ g2 ∈ gs, ∀ mask shift, g2.kind = .bitField mask shift →
        ∃ n, r.lookup g2.name = some (.intVal n) ∧
          r2.lookup g2.name = some (.intVal ((n.toNat : Nat) : Int)) :=
      fun g2 hg2 => heq g2 (List.mem_cons_of_mem g hg2)
    rcases assembleByte_cons_ok r g gs b h with
      ⟨mask, shift, n, b2, hk, hl, hc, ha, hb⟩ | ⟨hnb, ha⟩
    · subst hb
      obtain ⟨n2, hl2, hl2b⟩ := heq g (List.mem_cons_self g gs) mask shift hk
      rw [hl] at hl2
      injection hl2 with hl2
      injection hl2 with hl2
      subst hl2
      have hok : assembleByte r2 gs = .ok b2 := ih b2 ha htail
      simp only [assembleByte, hk, hl2b, Int.toNat_natCast, hok]
      rw [if_pos ⟨by positivity, hc.2⟩]
    · cases hk : g.kind with
      | bitField mask shift =>
        rw [isBitSub, hk] at hnb
        exact Bool.noConfusion hnb
      | intField => simp only [assembleByte, hk]; exact ih b ha htail
      | byteArray => simp only [assembleByte, hk]; exact ih b ha htail
      | termString term => simp only [assembleByte, hk]; exact ih b ha htail

theorem assembleByte_err_present (r : Record) (G : List FieldSpec) (e : CodecError)
    (hsome : ∀ g ∈ G, (r.lookup g.name).isSome = true)
    (h : assembleByte r G = .error e) : e = .ValueOutOfRange := by
  induction G with
  | nil => exact Except.noConfusion h
  | cons g gs ih =>
    have htail : ∀ g2 ∈ gs, (r.lookup g2.name).isSome = true :=
      fun g2 hg2 => hsome g2 (List.mem_cons_of_mem g hg2)
    cases hk : g.kind with
    | bitField mask shift =>
      simp only [assembleByte, hk] at h
      cases hl : r.lookup g.name with
      | none =>
        have := hsome g (List.mem_cons_self g gs)
        rw [hl] at this
        exact absurd this (by simp)
      | some v =>
        cases v with
        | intVal n =>
          simp only [hl] at h
          split_ifs at h with hc
          · cases ha : assembleByte r gs with
            | error e2 =>
              simp only [ha] at h
              injection h with h
              subst h
              exact ih htail ha
            | ok b =>
              simp only [ha] at h
              exact Except.noConfusion h
          · injection h with h
            exact h.symm
        | bytesVal bs =>
          simp only [hl] at h
          injection h with h
          exact h.symm
        | strVal s2 =>
          simp only [hl] at h
          injection h with h
          exact h.symm
    | intField => simp only [assembleByte, hk] at h; exact ih htail h
    | byteArray => simp only [assembleByte, hk] at h; exact ih htail h
    | termString term => simp only [assembleByte, hk] at h; exact ih htail h

theorem assembleByte_ok_of_valid (r : Record) (G : List FieldSpec)
    (hv : ∀ g ∈ G, fieldValid r g = true) :
    ∃ b, assembleByte r G = .ok b := by
  induction G with
  | nil => exact ⟨0, rfl⟩
  | cons g gs ih =>
    obtain ⟨b2, ha⟩ := ih (fun g2 hg2 => hv g2 (List.mem_cons_of_mem g hg2))
    have hg := hv g (List.mem_cons_self g gs)
    unfold fieldValid at hg
    cases hk : g.kind with
    | bitField mask shift =>
      cases hl : r.lookup g.name with
      | none =>
        simp only [hl] at hg
        exact absurd hg (by simp)
      | some v =>
        simp only [hl] at hg
        cases v with
        | intVal n =>
          cases he : encodeFieldBytes g (.intVal n) with
          | error e2 =>
            simp only [he, Except.toOption] at hg
            exact absurd hg (by simp)
          | ok bs =>
            have hfit : 0 ≤ n ∧ n.toNat &&& mask = n.toNat := by
              obtain ⟨nm, off, w, sg, k⟩ := g
              simp only at hk
              subst hk
              simp only [encodeFieldBytes] at he
              split_ifs at he with hc
              exact hc
            exact ⟨(n.toNat <<< shift) ||| b2, by
              simp only [assembleByte, hk, hl, if_pos hfit, ha]⟩
        | bytesVal bs =>
          have : False := by
            obtain ⟨nm, off, w, sg, k⟩ := g
            simp only at hk
            subst hk
            simp only [encodeFieldBytes, Except.toOption] at hg
            exact absurd hg (by simp)
          exact absurd this (by simp)
        | strVal s2 =>
          have : False := by
            obtain ⟨nm, off, w, sg, k⟩ := g
            simp only at hk
            subst hk
            simp only [encodeFieldBytes, Except.toOption] at hg
            exact absurd hg (by simp)
          exact absurd this (by simp)
    | intField => exact ⟨b2, by simp only [assembleByte, hk, ha]⟩
    | byteArray => exact ⟨b2, by simp only [assembleByte, hk, ha]⟩
    | termString term => exact ⟨b2, by simp only [assembleByte, hk, ha]⟩
theorem mem_bitGroup (fields : List FieldSpec) (off : Nat) (g : FieldSpec) :
    g ∈ bitGroup fields off ↔ g ∈ fields ∧ isBitSub g = true ∧ g.offset = off := by
  simp [bitGroup, List.mem_filter, Bool.and_eq_true, beq_iff_eq, and_assoc]

theorem isBitSub_extent (f : FieldSpec) (h : isBitSub f = true) : f.extent = 1 := by
  obtain ⟨nm, off, w, sg, k⟩ := f
  cases k with
  | bitField mask shift => rfl
  | intField => exact absurd h (by simp [isBitSub])
  | byteArray => exact absurd h (by simp [isBitSub])
  | termString term => exact absurd h (by simp [isBitSub])

theorem bitGroup_pairwise_masks (fields : List FieldSpec) (off : Nat)
    (hpw : fields.Pairwise overlapOk) :
    (bitGroup fields off).Pairwise (fun f g => shiftedMask f &&& shiftedMask g = 0) := by
  have h1 : (bitGroup fields off).Pairwise overlapOk :=
    hpw.filter (fun g => isBitSub g && g.offset == off)
  refine h1.imp_of_mem ?_
  intro a b ha hb hab
  have ha2 := (mem_bitGroup fields off a).mp ha
  have hb2 := (mem_bitGroup fields off b).mp hb
  rcases hab with hd | hs
  · exfalso
    unfold disjointE at hd
    have hea : a.extent = 1 := isBitSub_extent a ha2.2.1
    have heb : b.extent = 1 := isBitSub_extent b hb2.2.1
    have hoa := ha2.2.2
    have hob := hb2.2.2
    rcases hd with hd | hd <;> omega
  · exact hs.2.2.2

theorem fieldWrite_length (all : List FieldSpec) (r : Record) (f : FieldSpec) (v : Value)
    (bs : List Nat) (h : fieldWrite all r f v = .ok bs) : bs.length = f.extent := by
  cases hk : f.kind with
  | bitField mask shift =>
    simp only [fieldWrite, hk] at h
    cases ha : assembleByte r (bitGroup all f.offset) with
    | error e =>
      simp only [ha] at h
      exact Except.noConfusion h
    | ok b =>
      simp only [ha] at h
      injection h with h
      subst h
      simp [FieldSpec.extent, hk]
  | intField =>
    simp only [fieldWrite, hk] at h
    exact encodeFieldBytes_length f v bs h
  | byteArray =>
    simp only [fieldWrite, hk] at h
    exact encodeFieldBytes_length f v bs h
  | termString term =>
    simp only [fieldWrite, hk] at h
    exact encodeFieldBytes_length f v bs h

theorem fieldWrite_nonbit (all : List FieldSpec) (r : Record) (f : FieldSpec) (v : Value)
    (h : isBitSub f = false) : fieldWrite all r f v = encodeFieldBytes f v := by
  cases hk : f.kind with
  | bitField mask shift =>
    rw [isBitSub, hk] at h
    exact Bool.noConfusion h
  | intField => simp only [fieldWrite, hk]
  | byteArray => simp only [fieldWrite, hk]
  | termString term => simp only [fieldWrite, hk]

theorem fieldWrite_bit_ok (all : List FieldSpec) (r : Record) (f : FieldSpec) (v : Value)
    (mask shift : Nat) (bs : List Nat) (hk : f.kind = .bitField mask shift)
    (h : fieldWrite all r f v = .ok bs) :
    ∃ b, assembleByte r (bitGroup all f.offset) = .ok b ∧ bs = [b] := by
  simp only [fieldWrite, hk] at h
  cases ha : assembleByte r (bitGroup all f.offset) with
  | error e =>
    simp only [ha] at h
    exact Except.noConfusion h
  | ok b =>
    simp only [ha] at h
    injection h with h
    exact ⟨b, rfl, h.symm⟩

theorem fieldWrite_err (all : List FieldSpec) (r : Record) (f : FieldSpec) (v : Value)
    (e : CodecError)
    (hsome : ∀ g ∈ bitGroup all f.offset, (r.lookup g.name).isSome = true)
    (h : fieldWrite all r f v = .error e) : e = .ValueOutOfRange := by
  cases hk : f.kind with
  | bitField mask shift =>
    simp only [fieldWrite, hk] at h
    cases ha : assembleByte r (bitGroup all f.offset) with
    | error e2 =>
      simp only [ha] at h
      injection h with h
      subst h
      exact assembleByte_err_present r _ e2 hsome ha
    | ok b =>
      simp only [ha] at h
      exact Except.noConfusion h
  | intField =>
    simp only [fieldWrite, hk] at h
    exact encodeFieldBytes_err f v e h
  | byteArray =>
    simp only [fieldWrite, hk] at h
    exact encodeFieldBytes_err f v e h
  | termString term =>
    simp only [fieldWrite, hk] at h
    exact encodeFieldBytes_err f v e h

theorem fieldWrite_ok_encodeOk (all : List FieldSpec) (r : Record) (f : FieldSpec) (v : Value)
    (bs : List Nat) (hmem : f ∈ all) (hl : r.lookup f.name = some v)
    (h : fieldWrite all r f v = .ok bs) :
    ∃ bs2, encodeFieldBytes f v = .ok bs2 := by
  cases hk : f.kind with
  | bitField mask shift =>
    obtain ⟨b, ha, hbs⟩ := fieldWrite_bit_ok all r f v mask shift bs hk h
    have hfmem : f ∈ bitGroup all f.offset :=
      (mem_bitGroup all f.offset f).mpr ⟨hmem, by simp [isBitSub, hk], rfl⟩
    obtain ⟨n, hln, hfit⟩ := assembleByte_member_val r _ b ha f hfmem mask shift hk
    rw [hl] at hln
    injection hln with hln
    subst hln
    refine ⟨[n.toNat <<< shift], ?_⟩
    simp only [encodeFieldBytes, hk]
    rw [if_pos hfit]
  | intField =>
    simp only [fieldWrite, hk] at h
    exact ⟨bs, h⟩
  | byteArray =>
    simp only [fieldWrite, hk] at h
    exact ⟨bs, h⟩
  | termString term =>
    simp only [fieldWrite, hk] at h
    exact ⟨bs, h⟩
theorem encodeFields_length (all fields : List FieldSpec) (r : Record) (b buf : List Nat)
    (hb : ∀ f ∈ fields, f.offset + f.extent ≤ b.length)
    (h : encodeFields all fields r b = .ok buf) : buf.length = b.length := by
  induction fields generalizing b with
  | nil =>
    simp only [encodeFields] at h
    injection h with h
    subst h
    rfl
  | cons f fs ih =>
    simp only [encodeFields] at h
    cases hl : r.lookup f.name with
    | none => simp only [hl] at h; exact Except.noConfusion h
    | some v =>
      simp only [hl] at h
      cases he : fieldWrite all r f v with
      | error e => simp only [he] at h; exact Except.noConfusion h
      | ok bs =>
        simp only [he] at h
        have hlbs : bs.length = f.extent := fieldWrite_length all r f v bs he
        have hfb : f.offset + f.extent ≤ b.length := hb f (List.mem_cons_self f fs)
        have hble : f.offset + bs.length ≤ b.length := by omega
        have hwl : (writeAt b f.offset bs).length = b.length := writeAt_length b bs f.offset hble
        have hres := ih (writeAt b f.offset bs)
          (by intro g hg; rw [hwl]; exact hb g (List.mem_cons_of_mem f hg)) h
        omega

theorem encodeFields_outside (all fields : List FieldSpec) (r : Record) (b buf : List Nat)
    (i : Nat)
    (hb : ∀ f ∈ fields, f.offset + f.extent ≤ b.length)
    (hd : ∀ f ∈ fields, i < f.offset ∨ f.offset + f.extent ≤ i)
    (h : encodeFields all fields r b = .ok buf) :
    buf[i]? = b[i]? := by
  induction fields generalizing b with
  | nil =>
    simp only [encodeFields] at h
    injection h with h
    subst h
    rfl
  | cons f fs ih =>
    simp only [encodeFields] at h
    cases hl : r.lookup f.name with
    | none => simp only [hl] at h; exact Except.noConfusion h
    | some v =>
      simp only [hl] at h
      cases he : fieldWrite all r f v with
      | error e => simp only [he] at h; exact Except.noConfusion h
      | ok bs =>
        simp only [he] at h
        have hlbs : bs.length = f.extent := fieldWrite_length all r f v bs he
        have hfb : f.offset + f.extent ≤ b.length := hb f (List.mem_cons_self f fs)
        have hble : f.offset + bs.length ≤ b.length := by omega
        have hwl : (writeAt b f.offset bs).length = b.length := writeAt_length b bs f.offset hble
        have hstep := ih (writeAt b f.offset bs)
          (by intro g hg; rw [hwl]; exact hb g (List.mem_cons_of_mem f hg))
          (fun g hg => hd g (List.mem_cons_of_mem f hg)) h
        rw [hstep, writeAt_getElem? b bs f.offset i hble]
        have hdf := hd f (List.mem_cons_self f fs)
        by_cases h1 : i < f.offset
        · rw [if_pos h1]
        · rw [if_neg h1, if_neg (by omega)]

theorem encodeFields_err_kind (all fields : List FieldSpec) (r : Record) (b : List Nat)
    (e : CodecError)
    (hall : ∀ g ∈ all, (r.lookup g.name).isSome = true)
    (hsub : ∀ f ∈ fields, f ∈ all)
    (h : encodeFields all fields r b = .error e) : e = .ValueOutOfRange := by
  induction fields generalizing b with
  | nil => exact Except.noConfusion h
  | cons f fs ih =>
    simp only [encodeFields] at h
    cases hl : r.lookup f.name with
    | none =>
      have := hall f (hsub f (List.mem_cons_self f fs))
      rw [hl] at this
      exact absurd this (by simp)
    | some v =>
      simp only [hl] at h
      cases he : fieldWrite all r f v with
      | error e2 =>
        simp only [he] at h
        injection h with h
        subst h
        apply fieldWrite_err all r f v e2 ?_ he
        intro g hg
        exact hall g ((mem_bitGroup all f.offset g).mp hg).1
      | ok bs =>
        simp only [he] at h
        exact ih (writeAt b f.offset bs) (fun g hg => hsub g (List.mem_cons_of_mem f hg)) h

theorem encodeFields_ok (all fields : List FieldSpec) (r : Record) (b : List Nat)
    (hall : ∀ g ∈ all, fieldValid r g = true)
    (hsub : ∀ f ∈ fields, f ∈ all) :
    ∃ buf, encodeFields all fields r b = .ok buf := by
  induction fields generalizing b with
  | nil => exact ⟨b, rfl⟩
  | cons f fs ih =>
    have h0 := hall f (hsub f (List.mem_cons_self f fs))
    unfold fieldValid at h0
    cases hl : r.lookup f.name with
    | none =>
      simp only [hl] at h0
      exact absurd h0 (by simp)
    | some v =>
      simp only [hl] at h0
      have hwrite : ∃ bs, fieldWrite all r f v = .ok bs := by
        cases hk : f.kind with
        | bitField mask shift =>
          obtain ⟨b0, hb0⟩ := assembleByte_ok_of_valid r (bitGroup all f.offset)
            (fun g hg => hall g ((mem_bitGroup all f.offset g).mp hg).1)
          exact ⟨[b0], by simp only [fieldWrite, hk, hb0]⟩
        | intField =>
          cases he : encodeFieldBytes f v with
          | error e2 =>
            simp only [he, Except.toOption] at h0
            exact absurd h0 (by simp)
          | ok bs => exact ⟨bs, by simp only [fieldWrite, hk, he]⟩
        | byteArray =>
          cases he : encodeFieldBytes f v with
          | error e2 =>
            simp only [he, Except.toOption] at h0
            exact absurd h0 (by simp)
          | ok bs => exact ⟨bs, by simp only [fieldWrite, hk, he]⟩
        | termString term =>
          cases he : encodeFieldBytes f v with
          | error e2 =>
            simp only [he, Except.toOption] at h0
            exact absurd h0 (by simp)
          | ok bs => exact ⟨bs, by simp only [fieldWrite, hk, he]⟩
      obtain ⟨bs, hbs⟩ := hwrite
      obtain ⟨buf, hbuf⟩ := ih (writeAt b f.offset bs)
        (fun g hg => hsub g (List.mem_cons_of_mem f hg))
      exact ⟨buf, by simp only [encodeFields, hl, hbs, hbuf]⟩

theorem encodeFields_ok_write (all fields : List FieldSpec) (r : Record) (b buf : List Nat)
    (h : encodeFields all fields r b = .ok buf) :
    ∀ f ∈ fields, ∀ v, r.lookup f.name = some v → ∃ bs, fieldWrite all r f v = .ok bs := by
  induction fields generalizing b with
  | nil =>
    intro f hf
    exact absurd hf (List.not_mem_nil f)
  | cons f fs ih =>
    intro g hg v hl
    simp only [encodeFields] at h
    cases hl0 : r.lookup f.name with
    | none => simp only [hl0] at h; exact Except.noConfusion h
    | some v0 =>
      simp only [hl0] at h
      cases he0 : fieldWrite all r f v0 with
      | error e => simp only [he0] at h; exact Except.noConfusion h
      | ok bs0 =>
        simp only [he0] at h
        rcases List.mem_cons.mp hg with hgf | hgs
        · subst hgf
          have hv0 : v = v0 := by
            rw [hl] at hl0
            injection hl0
          subst hv0
          exact ⟨bs0, he0⟩
        · exact ih (writeAt b f.offset bs0) h g hgs v hl

theorem encodeFields_ok_lookup (all fields : List FieldSpec) (r : Record) (b buf : List Nat)
    (hsub : ∀ f ∈ fields, f ∈ all)
    (h : encodeFields all fields r b = .ok buf) :
    ∀ f ∈ fields, ∀ v, r.lookup f.name = some v → ∃ bs, encodeFieldBytes f v = .ok bs := by
  intro f hf v hl
  obtain ⟨bs, hbs⟩ := encodeFields_ok_write all fields r b buf h f hf v hl
  exact fieldWrite_ok_encodeOk all r f v bs (hsub f hf) hl hbs

theorem encodeFields_extract_stable (all fields : List FieldSpec) (r : Record)
    (b buf : List Nat) (o : Nat) (bs : List Nat)
    (hb : ∀ g ∈ fields, g.offset + g.extent ≤ b.length)
    (hinit : extract b o bs.length = bs)
    (hstab : ∀ g ∈ fields, (g.offset + g.extent ≤ o ∨ o + bs.length ≤ g.offset) ∨
      (g.offset = o ∧ ∀ v, r.lookup g.name = some v → fieldWrite all r g v = .ok bs))
    (h : encodeFields all fields r b = .ok buf) :
    extract buf o bs.length = bs := by
  induction fields generalizing b with
  | nil =>
    simp only [encodeFields] at h
    injection h with h
    subst h
    exact hinit
  | cons g gs ih =>
    simp only [encodeFields] at h
    cases hl : r.lookup g.name with
    | none => simp only [hl] at h; exact Except.noConfusion h
    | some v =>
      simp only [hl] at h
      cases he : fieldWrite all r g v with
      | error e => simp only [he] at h; exact Except.noConfusion h
      | ok bsg =>
        simp only [he] at h
        have hlbs : bsg.length = g.extent := fieldWrite_length all r g v bsg he
        have hfb : g.offset + g.extent ≤ b.length := hb g (List.mem_cons_self g gs)
        have hble : g.offset + bsg.length ≤ b.length := by omega
        have hwl : (writeAt b g.offset bsg).length = b.length := writeAt_length b bsg g.offset hble
        have hb2 : ∀ g2 ∈ gs, g2.offset + g2.extent ≤ (writeAt b g.offset bsg).length := by
          intro g2 hg2
          rw [hwl]
          exact hb g2 (List.mem_cons_of_mem g hg2)
        rcases hstab g (List.mem_cons_self g gs) with hdis | ⟨hoff, hsame⟩
        · have hinit2 : extract (writeAt b g.offset bsg) o bs.length = bs := by
            rw [extract_writeAt_disjoint b bsg o bs.length g.offset (by omega) hble]
            exact hinit
          exact ih (writeAt b g.offset bsg) hb2 hinit2
            (fun g2 hg2 => hstab g2 (List.mem_cons_of_mem g hg2)) h
        · have hbsg : bsg = bs := by
            have h2 := hsame v hl
            rw [he] at h2
            exact Except.ok.inj h2
          subst hbsg
          subst hoff
          have hinit2 : extract (writeAt b g.offset bsg) g.offset bsg.length = bsg :=
            extract_writeAt_self b bsg g.offset hble
          exact ih (writeAt b g.offset bsg) hb2 hinit2
            (fun g2 hg2 => hstab g2 (List.mem_cons_of_mem g hg2)) h

theorem encodeFields_write_extract (all fields : List FieldSpec) (r : Record)
    (b buf : List Nat)
    (hpw : List.Pairwise overlapOk fields)
    (hb : ∀ f ∈ fields, f.offset + f.extent ≤ b.length)
    (h : encodeFields all fields r b = .ok buf) :
    ∀ f ∈ fields, ∀ v bs, r.lookup f.name = some v → fieldWrite all r f v = .ok bs →
      extract buf f.offset f.extent = bs := by
  induction fields generalizing b with
  | nil =>
    intro f hf
    exact absurd hf (List.not_mem_nil f)
  | cons g gs ih =>
    rw [List.pairwise_cons] at hpw
    obtain ⟨hpwg, hpw2⟩ := hpw
    intro f hf v bs hl he
    simp only [encodeFields] at h
    cases hl0 : r.lookup g.name with
    | none => simp only [hl0] at h; exact Except.noConfusion h
    | some v0 =>
      simp only [hl0] at h
      cases he0 : fieldWrite all r g v0 with
      | error e => simp only [he0] at h; exact Except.noConfusion h
      | ok bs0 =>
        simp only [he0] at h
        have hlbs0 : bs0.length = g.extent := fieldWrite_length all r g v0 bs0 he0
        have hfb : g.offset + g.extent ≤ b.length := hb g (List.mem_cons_self g gs)
        have hble : g.offset + bs0.length ≤ b.length := by omega
        have hwl : (writeAt b g.offset bs0).length = b.length :=
          writeAt_length b bs0 g.offset hble
        have hb2 : ∀ g2 ∈ gs, g2.offset + g2.extent ≤ (writeAt b g.offset bs0).length := by
          intro g2 hg2
          rw [hwl]
          exact hb g2 (List.mem_cons_of_mem g hg2)
        rcases List.mem_cons.mp hf with hgf | hgs
        · subst hgf
          have hv0 : v = v0 := by
            rw [hl] at hl0
            injection hl0
          subst hv0
          have hbs0 : bs = bs0 := by
            rw [he] at he0
            injection he0
          subst hbs0
          have hinit : extract (writeAt b f.offset bs) f.offset bs.length = bs :=
            extract_writeAt_self b bs f.offset hble
          have hstab : ∀ g2 ∈ gs,
              (g2.offset + g2.extent ≤ f.offset ∨ f.offset + bs.length ≤ g2.offset) ∨
              (g2.offset = f.offset ∧ ∀ v2, r.lookup g2.name = some v2 →
                fieldWrite all r g2 v2 = .ok bs) := by
            intro g2 hg2
            rcases hpwg g2 hg2 with hd | hs
            · left
              unfold disjointE at hd
              omega
            · right
              obtain ⟨hbf, hbg2, hoff, hmask⟩ := hs
              refine ⟨hoff.symm, ?_⟩
              intro v2 hl2
              obtain ⟨mf, sf, hkf⟩ : ∃ mf sf, f.kind = .bitField mf sf := by
                obtain ⟨nm, off, w, sg, k⟩ := f
                cases k with
                | bitField m2 s2 => exact ⟨m2, s2, rfl⟩
                | intField => exact absurd hbf (by simp [isBitSub])
                | byteArray => exact absurd hbf (by simp [isBitSub])
                | termString t2 => exact absurd hbf (by simp [isBitSub])
              obtain ⟨mg, sg2, hkg⟩ : ∃ mg sg2, g2.kind = .bitField mg sg2 := by
                obtain ⟨nm, off, w, sg, k⟩ := g2
                cases k with
                | bitField m2 s2 => exact ⟨m2, s2, rfl⟩
                | intField => exact absurd hbg2 (by simp [isBitSub])
                | byteArray => exact absurd hbg2 (by simp [isBitSub])
                | termString t2 => exact absurd hbg2 (by simp [isBitSub])
              obtain ⟨b0, ha0, hbs0b⟩ := fieldWrite_bit_ok all r f v mf sf bs hkf he
              have hgrp : bitGroup all g2.offset = bitGroup all f.offset := by
                rw [hoff]
              simp only [fieldWrite, hkg, hgrp, ha0]
              rw [hbs0b]
          have hres := encodeFields_extract_stable all gs r (writeAt b f.offset bs) buf
            f.offset bs hb2 hinit hstab h
          rw [← hlbs0]
          exact hres
        · exact ih (writeAt b g.offset bs0) hpw2 hb2 h f hgs v bs hl he
theorem isBitSub_kind (f : FieldSpec) (h : isBitSub f = true) :
    ∃ mask shift, f.kind = .bitField mask shift := by
  cases hk : f.kind with
  | bitField mask shift => exact ⟨mask, shift, rfl⟩
  | intField => rw [isBitSub, hk] at h; exact Bool.noConfusion h
  | byteArray => rw [isBitSub, hk] at h; exact Bool.noConfusion h
  | termString term => rw [isBitSub, hk] at h; exact Bool.noConfusion h

theorem decodeFieldBytes_bit (f : FieldSpec) (mask shift b : Nat)
    (hk : f.kind = .bitField mask shift) :
    decodeFieldBytes f [b] = .ok (.intVal (((b >>> shift) &&& mask : Nat) : Int)) := by
  simp only [decodeFieldBytes, hk, List.headD_cons]

theorem encodeFields_write_congr (all fields : List FieldSpec) (r r2 : Record)
    (hcong : ∀ f ∈ fields, ∃ v1 v2, r.lookup f.name = some v1 ∧
      r2.lookup f.name = some v2 ∧ fieldWrite all r2 f v2 = fieldWrite all r f v1) :
    ∀ b, encodeFields all fields r2 b = encodeFields all fields r b := by
  induction fields with
  | nil => intro b; rfl
  | cons f fs ih =>
    intro b
    obtain ⟨v1, v2, hl1, hl2, hw⟩ := hcong f (List.mem_cons_self f fs)
    simp only [encodeFields, hl1, hl2, hw]
    cases hfw : fieldWrite all r f v1 with
    | error e => simp only [hfw]
    | ok bs =>
      simp only [hfw]
      exact ih (fun g hg => hcong g (List.mem_cons_of_mem f hg)) (writeAt b f.offset bs)

theorem decodeFields_ok_build (fields : List FieldSpec) (buf : List Nat)
    (hnd : (fields.map (fun f => f.name)).Nodup)
    (hdec : ∀ f ∈ fields, ∃ v, decodeField f buf = .ok v) :
    ∃ r2, decodeFields fields buf = .ok r2 ∧
      r2.map Prod.fst = fields.map (fun f => f.name) ∧
      ∀ f ∈ fields, ∀ v, decodeField f buf = .ok v → r2.lookup f.name = some v := by
  induction fields with
  | nil => exact ⟨[], rfl, rfl, fun f hf => absurd hf (List.not_mem_nil f)⟩
  | cons f fs ih =>
    rw [List.map_cons, List.nodup_cons] at hnd
    obtain ⟨hname, hnd2⟩ := hnd
    obtain ⟨v, hv⟩ := hdec f (List.mem_cons_self f fs)
    obtain ⟨r2, hr2, hkeys, hlook⟩ := ih hnd2 (fun g hg => hdec g (List.mem_cons_of_mem f hg))
    refine ⟨(f.name, v) :: r2, ?_, ?_, ?_⟩
    · simp only [decodeFields, hv, hr2]
    · simp only [List.map_cons, hkeys]
    · intro g hg v2 hv2
      rcases List.mem_cons.mp hg with hgf | hgs
      · subst hgf
        rw [hv] at hv2
        have hveq : v = v2 := Except.ok.inj hv2
        subst hveq
        simp [List.lookup]
      · have hne : (g.name == f.name) = false := by
          rw [beq_eq_false_iff_ne]
          intro hEq
          exact hname (hEq ▸ List.mem_map_of_mem (fun x => x.name) hgs)
        simp only [List.lookup, hne]
        exact hlook g hgs v2 hv2

theorem two_pow_split (w : Nat) (hw : 1 ≤ w) :
    2 ^ (8 * w) = 2 * 2 ^ (8 * w - 1) := by
  have h8 : 8 * w - 1 + 1 = 8 * w := by omega
  calc 2 ^ (8 * w) = 2 ^ (8 * w - 1 + 1) := by rw [h8]
    _ = 2 ^ (8 * w - 1) * 2 := pow_succ 2 (8 * w - 1)
    _ = 2 * 2 ^ (8 * w - 1) := Nat.mul_comm _ _
theorem lookup_isSome_of_mem_keys (r : Record) (a : String)
    (h : a ∈ r.map Prod.fst) : (r.lookup a).isSome = true := by
  induction r with
  | nil => exact absurd h (List.not_mem_nil a)
  | cons p t ih =>
    obtain ⟨k, v⟩ := p
    cases hk : (a == k) with
    | true => simp only [List.lookup, hk, Option.isSome_some]
    | false =>
      simp only [List.lookup, hk]
      apply ih
      rcases List.mem_cons.mp h with hh | hh
      · exact absurd (beq_iff_eq.mpr hh) (by simp [hk])
      · exact hh

/-- C1: for every well-formed schema — fields pairwise disjoint or
bit-sub-fields sharing a byte at disjoint bit positions, fields in bounds,
names unique — a buffer produced by `encode` decodes successfully, and
re-encoding the decoded record reproduces the buffer exactly (same length,
same bytes). -/
theorem round_trip_encode_decode (s : RecordSchema) (r : Record) (buf : List Nat)
    (hwf : SchemaWf s) (henc : encode s r = .ok buf) :
    ∃ r2, decode s buf = .ok r2 ∧ encode s r2 = .ok buf := by
  obtain ⟨hpw, hbnd, hnd⟩ := hwf
  unfold encode at henc
  split_ifs at henc with hall
  rw [List.all_eq_true] at hall
  have hzl : (List.replicate s.total_length (0 : Nat)).length = s.total_length := by simp
  have hb : ∀ f ∈ s.fields,
      f.offset + f.extent ≤ (List.replicate s.total_length (0 : Nat)).length := by
    intro f hf
    rw [hzl]
    exact hbnd f hf
  have hbl : buf.length = s.total_length := by
    have hx := encodeFields_length s.fields s.fields r (List.replicate s.total_length 0) buf
      hb henc
    rw [hzl] at hx
    exact hx
  have hext := encodeFields_write_extract s.fields s.fields r
    (List.replicate s.total_length 0) buf hpw hb henc
  have hokw := encodeFields_ok_write s.fields s.fields r
    (List.replicate s.total_length 0) buf henc
  have hdec : ∀ f ∈ s.fields, ∃ v2, decodeField f buf = .ok v2 := by
    intro f hf
    have hsome := hall f hf
    cases hl : r.lookup f.name with
    | none =>
      rw [hl] at hsome
      exact absurd hsome (by simp)
    | some v =>
      obtain ⟨bs, hbs⟩ := hokw f hf v hl
      have hx : extract buf f.offset f.extent = bs := hext f hf v bs hl hbs
      by_cases hbit : isBitSub f = true
      · obtain ⟨mask, shift, hk⟩ := isBitSub_kind f hbit
        obtain ⟨b0, ha0, hbseq⟩ := fieldWrite_bit_ok s.fields r f v mask shift bs hk hbs
        refine ⟨.intVal (((b0 >>> shift) &&& mask : Nat) : Int), ?_⟩
        rw [decodeField, hx, hbseq]
        exact decodeFieldBytes_bit f mask shift b0 hk
      · have hnb : isBitSub f = false := by simpa using hbit
        rw [fieldWrite_nonbit s.fields r f v hnb] at hbs
        obtain ⟨v2, hv2, hv2e⟩ := decodeFieldBytes_roundtrip f v bs hbs
        refine ⟨v2, ?_⟩
        rw [decodeField, hx]
        exact hv2
  obtain ⟨r2, hr2dec, hkeys, hlook⟩ := decodeFields_ok_build s.fields buf hnd hdec
  refine ⟨r2, ?_, ?_⟩
  · unfold decode
    rw [if_pos hbl]
    exact hr2dec
  · unfold encode
    have hall2 : s.fields.all (fun f => (r2.lookup f.name).isSome) = true := by
      rw [List.all_eq_true]
      intro f hf
      apply lookup_isSome_of_mem_keys
      rw [hkeys]
      exact List.mem_map_of_mem (fun g => g.name) hf
    rw [if_pos hall2]
    have hcong : ∀ f ∈ s.fields, ∃ v1 v2, r.lookup f.name = some v1 ∧
        r2.lookup f.name = some v2 ∧
        fieldWrite s.fields r2 f v2 = fieldWrite s.fields r f v1 := by
      intro f hf
      have hsome := hall f hf
      cases hl : r.lookup f.name with
      | none =>
        rw [hl] at hsome
        exact absurd hsome (by simp)
      | some v =>
        obtain ⟨bs, hbs⟩ := hokw f hf v hl
        have hx : extract buf f.offset f.extent = bs := hext f hf v bs hl hbs
        by_cases hbit : isBitSub f = true
        · obtain ⟨mask, shift, hk⟩ := isBitSub_kind f hbit
          obtain ⟨b0, ha0, hbseq⟩ := fieldWrite_bit_ok s.fields r f v mask shift bs hk hbs
          have hdf : decodeField f buf =
              .ok (.intVal (((b0 >>> shift) &&& mask : Nat) : Int)) := by
            rw [decodeField, hx, hbseq]
            exact decodeFieldBytes_bit f mask shift b0 hk
          have hl2 := hlook f hf _ hdf
          refine ⟨v, .intVal (((b0 >>> shift) &&& mask : Nat) : Int), rfl, hl2, ?_⟩
          have hpairs := bitGroup_pairwise_masks s.fields f.offset hpw
          have hmemeq : ∀ g ∈ bitGroup s.fields f.offset, ∀ mg sg,
              g.kind = .bitField mg sg →
              ∃ n, r.lookup g.name = some (.intVal n) ∧
                r2.lookup g.name = some (.intVal ((n.toNat : Nat) : Int)) := by
            intro g hg mg sg hkg
            obtain ⟨n, hln, hfit⟩ := assembleByte_member_val r _ b0 ha0 g hg mg sg hkg
            refine ⟨n, hln, ?_⟩
            have hgmem := (mem_bitGroup s.fields f.offset g).mp hg
            have hgall : g ∈ s.fields := hgmem.1
            have hoffg : g.offset = f.offset := hgmem.2.2
            obtain ⟨bsg, hbsg⟩ := hokw g hgall _ hln
            have hgx : extract buf g.offset g.extent = bsg := hext g hgall _ bsg hln hbsg
            obtain ⟨bg, hag, hbgeq⟩ :=
              fieldWrite_bit_ok s.fields r g (.intVal n) mg sg bsg hkg hbsg
            rw [hoffg] at hag
            rw [ha0] at hag
            have hbg : b0 = bg := Except.ok.inj hag
            subst hbg
            have hdg : decodeField g buf =
                .ok (.intVal (((b0 >>> sg) &&& mg : Nat) : Int)) := by
              rw [decodeField, hgx, hbgeq]
              exact decodeFieldBytes_bit g mg sg b0 hkg
            have hr2g := hlook g hgall _ hdg
            have hval : (b0 >>> sg) &&& mg = n.toNat :=
              assembleByte_extract r _ b0 hpairs ha0 g hg mg sg n hkg hln
            rw [hval] at hr2g
            exact hr2g
          have ha2 := assembleByte_congr_ok r r2 _ b0 ha0 hmemeq
          simp only [fieldWrite, hk, ha0, ha2]
        · have hnb : isBitSub f = false := by simpa using hbit
          have hbs2 := hbs
          rw [fieldWrite_nonbit s.fields r f v hnb] at hbs2
          obtain ⟨v2, hv2, hv2e⟩ := decodeFieldBytes_roundtrip f v bs hbs2
          have hdf : decodeField f buf = .ok v2 := by
            rw [decodeField, hx]
            exact hv2
          refine ⟨v, v2, rfl, hlook f hf v2 hdf, ?_⟩
          rw [fieldWrite_nonbit s.fields r2 f v2 hnb, fieldWrite_nonbit s.fields r f v hnb,
            hv2e, hbs2]
    rw [encodeFields_write_congr s.fields s.fields r r2 hcong
      (List.replicate s.total_length 0)]
    exact henc
/-- A fully-populated sample Hero record used as a concrete witness. -/
def heroRec : Record :=
  [ ("Hero_Level", .intVal 20),
    ("Hero_XP", .intVal 123456),
    ("HP_Max", .intVal 300),
    ("Hero_HP", .intVal 250),
    ("MP_Max", .intVal 80),
    ("Hero_MP", .intVal 77),
    ("Hero_Strength", .intVal 55),
    ("Hero_Agility", .intVal 33),
    ("Hero_Stamina", .intVal 44),
    ("Hero_Wisdom", .intVal 25),
    ("Hero_Luck", .intVal 12),
    ("Hero_Name", .strVal [65, 66, 67]),
    ("Hero_Spells", .intVal 7),
    ("Bag_Number_Equiped", .intVal 3),
    ("Bag_Number_Carried", .intVal 9),
    ("Bag_Items", .intVal 2) ]

/-- The 60-byte buffer `encode Hero_t heroRec` produces. -/
def heroBuf : List Nat :=
  [40, 64, 226, 1, 0, 44, 1, 250, 0, 80, 0, 77, 0, 55, 33, 44, 25, 12,
   65, 66, 67, 172, 0, 7, 3, 9, 2] ++ List.replicate 33 0

/-- `heroRec` with the strength entry removed. -/
def heroRecNoStrength : Record :=
  heroRec.filter (fun p => p.1 ≠ "Hero_Strength")

/-- `heroRec` with an XP value that does not fit 4 bytes. -/
def heroRecBadXP : Record :=
  ("Hero_XP", .intVal (2 ^ 32)) :: heroRec.filter (fun p => p.1 ≠ "Hero_XP")

/-- C1 witness: the concrete Hero record round-trips through its encoded
buffer. -/
theorem round_trip_encode_decode_witness :
    ∃ r2, decode Hero_t heroBuf = .ok r2 ∧ encode Hero_t r2 = .ok heroBuf :=
  round_trip_encode_decode Hero_t heroRec heroBuf (by decide) (by decide)

/-- C2: decode fails with `LengthMismatch` exactly when the buffer length
differs from the schema's total length; in particular a 59-byte buffer
against the 60-byte Hero schema fails with `LengthMismatch`. -/
theorem decode_length_mismatch :
    (∀ (s : RecordSchema) (buf : List Nat),
      decode s buf = .error .LengthMismatch ↔ ¬ buf.length = s.total_length) ∧
    decode Hero_t (List.replicate 59 0) = .error .LengthMismatch ∧
    Hero_t.total_length = 60 := by
  refine ⟨?_, by decide, rfl⟩
  intro s buf
  constructor
  · intro h hlen
    unfold decode at h
    rw [if_pos hlen] at h
    cases hd : decodeFields s.fields buf with
    | ok r =>
      rw [hd] at h
      exact Except.noConfusion h
    | error e =>
      rw [hd] at h
      injection h with h
      have hm := decodeFields_err s.fields buf e hd
      rw [hm] at h
      exact CodecError.noConfusion h
  · intro hlen
    unfold decode
    rw [if_neg hlen]

/-- C2 witness: the general characterisation applied to a 59-byte buffer
and the Hero schema. -/
theorem decode_length_mismatch_witness :
    decode Hero_t (List.replicate 59 0) = .error .LengthMismatch :=
  (decode_length_mismatch.1 Hero_t (List.replicate 59 0)).mpr (by decide)

/-- C3: bit-sub-field decoding applies the declared shift and mask to the
containing byte: the Hero level field (top 7 bits, shift 1, mask `0x7F`)
decodes byte `0xFF` to 127 and byte `0x00` to 0, whatever the rest of the
buffer holds. -/
theorem bit_subfield_decode :
    (∀ rest : List Nat, decodeField heroLevelField (255 :: rest) = .ok (.intVal 127)) ∧
    (∀ rest : List Nat, decodeField heroLevelField (0 :: rest) = .ok (.intVal 0)) ∧
    heroLevelField ∈ Hero_t.fields ∧
    heroLevelField.kind = .bitField 0x7F 1 := by
  refine ⟨?_, ?_, by decide, rfl⟩
  · intro rest
    simp [decodeField, decodeFieldBytes, heroLevelField, extract, FieldSpec.extent]
  · intro rest
    simp [decodeField, decodeFieldBytes, heroLevelField, extract, FieldSpec.extent]

/-- C3 witness: the two byte values on a concrete 60-byte buffer. -/
theorem bit_subfield_decode_witness :
    decodeField heroLevelField (255 :: List.replicate 59 0) = .ok (.intVal 127) ∧
    decodeField heroLevelField (0 :: List.replicate 59 0) = .ok (.intVal 0) :=
  ⟨bit_subfield_decode.1 (List.replicate 59 0),
   bit_subfield_decode.2.1 (List.replicate 59 0)⟩

/-- The record the C4 buffer decodes to: every integer field zero, name
`"AB"` (byte codes 0x41 0x42). -/
def heroZeroNameRec : Record :=
  [ ("Hero_Level", .intVal 0),
    ("Hero_XP", .intVal 0),
    ("HP_Max", .intVal 0),
    ("Hero_HP", .intVal 0),
    ("MP_Max", .intVal 0),
    ("Hero_MP", .intVal 0),
    ("Hero_Strength", .intVal 0),
    ("Hero_Agility", .intVal 0),
    ("Hero_Stamina", .intVal 0),
    ("Hero_Wisdom", .intVal 0),
    ("Hero_Luck", .intVal 0),
    ("Hero_Name", .strVal [65, 66]),
    ("Hero_Spells", .intVal 0),
    ("Bag_Number_Equiped", .intVal 0),
    ("Bag_Number_Carried", .intVal 0),
    ("Bag_Items", .intVal 0) ]

/-- C4: terminated-string decoding copies bytes up to the declared
terminator and ignores what follows inside the fixed width: a Hero buffer
whose 5-byte name field begins `[0x41, 0x42, 0xAC, 0x00]` decodes with name
`"AB"` (bytes `[0x41, 0x42]`), for any value of the fifth name byte. -/
theorem term_string_decode :
    (∀ b4 : Nat,
      decodeField heroNameField
          (List.replicate 18 0 ++ 65 :: 66 :: 172 :: 0 :: b4 :: List.replicate 37 0) =
        .ok (.strVal [65, 66])) ∧
    decode Hero_t
        (List.replicate 18 0 ++ 65 :: 66 :: 172 :: 0 :: 0 :: List.replicate 37 0) =
      .ok heroZeroNameRec ∧
    heroZeroNameRec.lookup "Hero_Name" = some (.strVal [65, 66]) ∧
    heroNameField ∈ Hero_t.fields ∧
    heroNameField.kind = .termString 0xAC ∧
    heroNameField.width = 5 := by
  refine ⟨?_, by decide, rfl, by decide, rfl, rfl⟩
  intro b4
  rfl

/-- C4 witness: the fifth name byte instantiated to `0x2A`. -/
theorem term_string_decode_witness :
    decodeField heroNameField
        (List.replicate 18 0 ++ 65 :: 66 :: 172 :: 0 :: 42 :: List.replicate 37 0) =
      .ok (.strVal [65, 66]) :=
  term_string_decode.1 42

/-- C5: when a terminated-string field has no occurrence of its terminator
byte within its declared width, decoding a correct-length buffer fails with
`MalformedString` rather than truncating or coercing. -/
theorem term_string_missing_terminator (s : RecordSchema) (f : FieldSpec) (term : Nat)
    (buf : List Nat) (hf : f ∈ s.fields) (hk : f.kind = .termString term)
    (hlen : buf.length = s.total_length)
    (hterm : term ∉ extract buf f.offset f.extent) :
    decode s buf = .error .MalformedString := by
  unfold decode
  rw [if_pos hlen]
  have hfail : decodeField f buf = .error .MalformedString := by
    simp only [decodeField, decodeFieldBytes, hk,
      (takeUntil_eq_none_iff term (extract buf f.offset f.extent)).mpr hterm]
  cases hd : decodeFields s.fields buf with
  | ok r =>
    obtain ⟨v, hv⟩ := decodeFields_ok_field s.fields buf r hd f hf
    rw [hfail] at hv
    exact Except.noConfusion hv
  | error e =>
    rw [decodeFields_err s.fields buf e hd]

/-- C5 witness: an all-zero 60-byte buffer has no `0xAC` in the Hero name
field, so Hero decoding fails with `MalformedString`. -/
theorem term_string_missing_terminator_witness :
    decode Hero_t (List.replicate 60 0) = .error .MalformedString :=
  term_string_missing_terminator Hero_t heroNameField 0xAC (List.replicate 60 0)
    (by decide) rfl (by decide) (by decide)

/-- C6: encoding a record that holds a valid value for every declared field
of a well-formed schema succeeds with a buffer of exactly the schema's
total length; every byte-owning field's encoded bytes sit at the field's
declared offset, every bit-sub-field's value sits at its declared bit
position inside its containing byte, and every byte covered by no field is
zero. -/
theorem encode_total (s : RecordSchema) (r : Record)
    (hwf : SchemaWf s) (hv : ∀ f ∈ s.fields, fieldValid r f = true) :
    ∃ buf, encode s r = .ok buf ∧ buf.length = s.total_length ∧
      (∀ f ∈ s.fields, ∀ v bs, isBitSub f = false → r.lookup f.name = some v →
        encodeFieldBytes f v = .ok bs → extract buf f.offset f.extent = bs) ∧
      (∀ f ∈ s.fields, ∀ mask shift n, f.kind = .bitField mask shift →
        r.lookup f.name = some (.intVal n) →
        (((extract buf f.offset f.extent).headD 0) >>> shift) &&& mask = n.toNat) ∧
      (∀ i, i < s.total_length →
        (∀ f ∈ s.fields, i < f.offset ∨ f.offset + f.extent ≤ i) →
        buf.getD i 0 = 0) := by
  obtain ⟨hpw, hbnd, hnd⟩ := hwf
  have hzl : (List.replicate s.total_length (0 : Nat)).length = s.total_length := by simp
  have hb : ∀ f ∈ s.fields,
      f.offset + f.extent ≤ (List.replicate s.total_length (0 : Nat)).length := by
    intro f hf
    rw [hzl]
    exact hbnd f hf
  obtain ⟨buf, hbuf⟩ := encodeFields_ok s.fields s.fields r (List.replicate s.total_length 0)
    hv (fun f hf => hf)
  have hall : s.fields.all (fun f => (r.lookup f.name).isSome) = true := by
    rw [List.all_eq_true]
    intro f hf
    have hvf := hv f hf
    unfold fieldValid at hvf
    cases hl : r.lookup f.name with
    | none =>
      simp only [hl] at hvf
      exact absurd hvf (by simp)
    | some v => simp
  have hext := encodeFields_write_extract s.fields s.fields r
    (List.replicate s.total_length 0) buf hpw hb hbuf
  have hokw := encodeFields_ok_write s.fields s.fields r
    (List.replicate s.total_length 0) buf hbuf
  refine ⟨buf, ?_, ?_, ?_, ?_, ?_⟩
  · unfold encode
    rw [if_pos hall]
    exact hbuf
  · have hx := encodeFields_length s.fields s.fields r (List.replicate s.total_length 0) buf
      hb hbuf
    rw [hzl] at hx
    exact hx
  · intro f hf v bs hnb hl he
    have hfw : fieldWrite s.fields r f v = .ok bs := by
      rw [fieldWrite_nonbit s.fields r f v hnb]
      exact he
    exact hext f hf v bs hl hfw
  · intro f hf mask shift n hk hl
    obtain ⟨bs, hbs⟩ := hokw f hf (.intVal n) hl
    obtain ⟨b0, ha0, hbseq⟩ := fieldWrite_bit_ok s.fields r f (.intVal n) mask shift bs hk hbs
    have hx : extract buf f.offset f.extent = bs := hext f hf _ bs hl hbs
    rw [hx, hbseq]
    have hpairs := bitGroup_pairwise_masks s.fields f.offset hpw
    have hfmem : f ∈ bitGroup s.fields f.offset :=
      (mem_bitGroup s.fields f.offset f).mpr ⟨hf, by simp [isBitSub, hk], rfl⟩
    have hval := assembleByte_extract r _ b0 hpairs ha0 f hfmem mask shift n hk hl
    simpa using hval
  · intro i hi hout
    have hp := encodeFields_outside s.fields s.fields r (List.replicate s.total_length 0) buf i
      hb hout hbuf
    rw [List.getD_eq_getElem?_getD, hp, List.getElem?_replicate, if_pos hi]
    rfl

/-- C6 witness: the concrete Hero record encodes against the Hero schema
(whose 16 fields cover 27 of the 60 bytes, leaving 33 zero padding
bytes). -/
theorem encode_total_witness :
    ∃ buf, encode Hero_t heroRec = .ok buf ∧ buf.length = Hero_t.total_length ∧
      (∀ f ∈ Hero_t.fields, ∀ v bs, isBitSub f = false →
        heroRec.lookup f.name = some v →
        encodeFieldBytes f v = .ok bs → extract buf f.offset f.extent = bs) ∧
      (∀ f ∈ Hero_t.fields, ∀ mask shift n, f.kind = .bitField mask shift →
        heroRec.lookup f.name = some (.intVal n) →
        (((extract buf f.offset f.extent).headD 0) >>> shift) &&& mask = n.toNat) ∧
      (∀ i, i < Hero_t.total_length →
        (∀ f ∈ Hero_t.fields, i < f.offset ∨ f.offset + f.extent ≤ i) →
        buf.getD i 0 = 0) :=
  encode_total Hero_t heroRec (by decide) (by decide)

/-- C7: encode fails with `MissingField` whenever the record lacks a value
for some declared field, and with `ValueOutOfRange` when every field is
present but some field's value does not fit its declared width. -/
theorem encode_missing_and_range :
    (∀ (s : RecordSchema) (r : Record),
      (∃ f, f ∈ s.fields ∧ r.lookup f.name = none) →
      encode s r = .error .MissingField) ∧
    (∀ (s : RecordSchema) (r : Record) (f : FieldSpec) (v : Value),
      (∀ g ∈ s.fields, (r.lookup g.name).isSome = true) →
      f ∈ s.fields → r.lookup f.name = some v →
      encodeFieldBytes f v = .error .ValueOutOfRange →
      encode s r = .error .ValueOutOfRange) := by
  constructor
  · rintro s r ⟨f, hf, hnone⟩
    unfold encode
    have hcond : ¬ (s.fields.all (fun g => (r.lookup g.name).isSome) = true) := by
      intro hall
      rw [List.all_eq_true] at hall
      have hx := hall f hf
      rw [hnone] at hx
      exact absurd hx (by simp)
    rw [if_neg hcond]
  · intro s r f v hall hf hl he
    unfold encode
    have hallb : s.fields.all (fun g => (r.lookup g.name).isSome) = true := by
      rw [List.all_eq_true]
      exact hall
    rw [if_pos hallb]
    cases hres : encodeFields s.fields s.fields r (List.replicate s.total_length 0) with
    | ok buf =>
      obtain ⟨bs, hbs⟩ := encodeFields_ok_lookup s.fields s.fields r
        (List.replicate s.total_length 0) buf (fun g hg => hg) hres f hf v hl
      rw [he] at hbs
      exact Except.noConfusion hbs
    | error e =>
      rw [encodeFields_err_kind s.fields s.fields r (List.replicate s.total_length 0) e
        hall (fun g hg => hg) hres]

/-- C7 witness: a Hero record missing the strength field fails with
`MissingField`; one whose XP value is `2^32` fails with
`ValueOutOfRange`. -/
theorem encode_missing_and_range_witness :
    encode Hero_t heroRecNoStrength = .error .MissingField ∧
    encode Hero_t heroRecBadXP = .error .ValueOutOfRange :=
  ⟨encode_missing_and_range.1 Hero_t heroRecNoStrength
      ⟨heroStrengthField, by decide, by decide⟩,
   encode_missing_and_range.2 Hero_t heroRecBadXP heroXPField (.intVal (2 ^ 32))
      (by decide) (by decide) (by decide) (by decide)⟩

/-- C8: a plain integer field is decoded by reading its bytes in
little-endian order: an unsigned field decodes its slice to the
little-endian value (explicitly, one byte decodes to `b0`, two to
`b0 + 256*b1`, and four — as in the Hero XP field — to
`b0 + 256*b1 + 65536*b2 + 16777216*b3`), and a declared signed field
interprets those bytes in two's complement, so that decoding recovers every
representable signed value from its encoding. -/
theorem int_field_little_endian :
    (∀ (f : FieldSpec) (buf : List Nat), f.kind = .intField → f.signed = false →
      decodeField f buf = .ok (.intVal (bytesToNatLE (extract buf f.offset f.width)))) ∧
    (∀ (f : FieldSpec) (n : Int) (bs : List Nat), f.kind = .intField →
      f.signed = true → 1 ≤ f.width →
      encodeFieldBytes f (.intVal n) = .ok bs →
      decodeFieldBytes f bs = .ok (.intVal n)) ∧
    (∀ b0 : Nat, bytesToNatLE [b0] = b0) ∧
    (∀ b0 b1 : Nat, bytesToNatLE [b0, b1] = b0 + 256 * b1) ∧
    (∀ b0 b1 b2 b3 : Nat, bytesToNatLE [b0, b1, b2, b3] =
      b0 + 256 * b1 + 65536 * b2 + 16777216 * b3) ∧
    heroXPField ∈ Hero_t.fields ∧ heroXPField.kind = .intField ∧
    heroXPField.width = 4 ∧ heroXPField.signed = false := by
  refine ⟨?_, ?_, ?_, ?_, ?_, by decide, rfl, rfl, rfl⟩
  · intro f buf hk hs
    have hex : f.extent = f.width := by
      unfold FieldSpec.extent
      rw [hk]
    have hns : ¬ (f.signed = true ∧
        2 ^ (8 * f.width - 1) ≤ bytesToNatLE (extract buf f.offset f.extent)) := by
      intro hand
      rw [hs] at hand
      exact Bool.noConfusion hand.1
    simp only [decodeField, decodeFieldBytes, hk, hex] at hns ⊢
    rw [if_neg hns]
  · intro f n bs hk hs hw henc
    obtain ⟨nm, off, w, sg, k⟩ := f
    have hk2 : k = .intField := hk
    have hs2 : sg = true := hs
    have hw2 : (1 : Nat) ≤ w := hw
    subst hk2
    subst hs2
    simp only [encodeFieldBytes] at henc
    rw [if_pos trivial] at henc
    split_ifs at henc with hc
    injection henc with henc
    have hpos : (0 : Int) < 2 ^ (8 * w) := by positivity
    have hnn : (0 : Int) ≤ n % 2 ^ (8 * w) := Int.emod_nonneg n (by positivity)
    have hltI : n % 2 ^ (8 * w) < 2 ^ (8 * w) := Int.emod_lt_of_pos n hpos
    have hconv : ∀ e : Nat, ((2 : Int) ^ e) = ((2 ^ e : Nat) : Int) := by
      intro e
      push_cast
      ring
    have hult : (n % 2 ^ (8 * w)).toNat < 2 ^ (8 * w) := by
      rw [Int.toNat_lt hnn]
      exact_mod_cast hltI
    subst henc
    simp only [decodeFieldBytes, natToBytesLE_roundtrip _ _ hult]
    have hcast : (((n % 2 ^ (8 * w)).toNat : Int)) = n % 2 ^ (8 * w) :=
      Int.toNat_of_nonneg hnn
    have hsplitI : ((2 : Int) ^ (8 * w)) = 2 * 2 ^ (8 * w - 1) := by
      rw [hconv (8 * w), hconv (8 * w - 1)]
      exact_mod_cast two_pow_split w hw2
    have hHpos : (0 : Int) < 2 ^ (8 * w - 1) := by positivity
    have hHK : ((2 : Int) ^ (8 * w - 1)) ≤ 2 ^ (8 * w) := by linarith
    have hmodpos : 0 ≤ n → n % 2 ^ (8 * w) = n :=
      fun h0 => Int.emod_eq_of_lt h0 (lt_of_lt_of_le hc.2 hHK)
    have hmodneg : n < 0 → n % 2 ^ (8 * w) = n + 2 ^ (8 * w) := by
      intro hlt
      have h1 : (n + 2 ^ (8 * w)) % 2 ^ (8 * w) = n % 2 ^ (8 * w) := by
        have h2 := Int.add_mul_emod_self_left n (2 ^ (8 * w)) 1
        rwa [mul_one] at h2
      rw [← h1]
      exact Int.emod_eq_of_lt (by linarith [hc.1]) (by linarith)
    by_cases hc2 : 2 ^ (8 * w - 1) ≤ (n % 2 ^ (8 * w)).toNat
    · rw [if_pos ⟨trivial, hc2⟩]
      have hneg : n < 0 := by
        by_contra hge
        push_neg at hge
        have hun : (((n % 2 ^ (8 * w)).toNat : Int)) = n := by
          rw [hcast, hmodpos hge]
        have hHleu : ((2 : Int) ^ (8 * w - 1)) ≤ (((n % 2 ^ (8 * w)).toNat : Int)) := by
          rw [hconv (8 * w - 1)]
          exact_mod_cast hc2
        rw [hun] at hHleu
        linarith [hc.2]
      have hun : (((n % 2 ^ (8 * w)).toNat : Int)) = n + 2 ^ (8 * w) := by
        rw [hcast, hmodneg hneg]
      rw [hun, add_sub_cancel_right]
    · rw [if_neg (fun hand => hc2 hand.2)]
      have hge : 0 ≤ n := by
        by_contra hlt
        push_neg at hlt
        have hun : (((n % 2 ^ (8 * w)).toNat : Int)) = n + 2 ^ (8 * w) := by
          rw [hcast, hmodneg hlt]
        have hx : ((2 : Int) ^ (8 * w - 1)) ≤ (((n % 2 ^ (8 * w)).toNat : Int)) := by
          rw [hun]
          linarith [hc.1]
        rw [hconv (8 * w - 1)] at hx
        exact hc2 (by exact_mod_cast hx)
      have hun : (((n % 2 ^ (8 * w)).toNat : Int)) = n := by
        rw [hcast, hmodpos hge]
      rw [hun]
  · intro b0
    simp [bytesToNatLE]
  · intro b0 b1
    simp [bytesToNatLE]
  · intro b0 b1 b2 b3
    simp [bytesToNatLE]
    ring

/-- C8 witness: the Hero XP field over the bytes `[1, 2, 3, 4]` decodes to
`1 + 256*2 + 65536*3 + 16777216*4 = 67 305 985`, and a 2-byte signed field
decodes its encoding of `-2`, the bytes `[254, 255]`, back to `-2`. -/
theorem int_field_little_endian_witness :
    decodeField heroXPField (0 :: 1 :: 2 :: 3 :: 4 :: List.replicate 55 0) =
      .ok (.intVal 67305985) ∧
    decodeFieldBytes
        { name := "Signed16", offset := 0, width := 2, signed := true,
          kind := .intField } [254, 255] = .ok (.intVal (-2)) := by
  constructor
  · have h := int_field_little_endian.1 heroXPField
      (0 :: 1 :: 2 :: 3 :: 4 :: List.replicate 55 0) rfl rfl
    exact h.trans (by decide)
  · exact int_field_little_endian.2.1
      { name := "Signed16", offset := 0, width := 2, signed := true,
        kind := .intField } (-2) [254, 255] rfl rfl (by decide) (by decide)

/-- C9 counterexample: party member #5's header uniquely declares an extra
one-byte spells field (`5_Spells`), so its schema sums to 27 extent bytes,
not the 26 the claim asserts for every party member. -/
theorem schema_invariants_counterexample :
    sumExtents PartyMember_5_t.fields = 27 ∧
    ¬ sumExtents PartyMember_5_t.fields = 26 := by
  decide

/-- C9 (amended): all 13 documented schema instances satisfy the
record-schema invariant (no two fields overlap unless they are
bit-sub-fields sharing a byte, and the summed field extents fit in the
total length); the Hero schema declares 27 bytes of fields inside its 60,
party member #5 — whose header uniquely adds a spells byte — likewise 27
inside 60, every other party member declares 26 inside 60, and the
inventory declares 3 inside 512. -/
theorem schema_invariants :
    SchemaInvariant Hero_t ∧ SchemaInvariant Inventory_t ∧
    SchemaInvariant PartyMember_2_t ∧ SchemaInvariant PartyMember_3_t ∧
    SchemaInvariant PartyMember_4_t ∧ SchemaInvariant PartyMember_5_t ∧
    SchemaInvariant PartyMember_6_t ∧ SchemaInvariant PartyMember_7_t ∧
    SchemaInvariant PartyMember_8_t ∧ SchemaInvariant PartyMember_9_t ∧
    SchemaInvariant PartyMember_10_t ∧ SchemaInvariant PartyMember_11_t ∧
    SchemaInvariant PartyMember_12_t ∧
    sumExtents Hero_t.fields = 27 ∧ Hero_t.total_length = 60 ∧
    sumExtents PartyMember_2_t.fields = 26 ∧ PartyMember_2_t.total_length = 60 ∧
    sumExtents PartyMember_3_t.fields = 26 ∧ PartyMember_3_t.total_length = 60 ∧
    sumExtents PartyMember_4_t.fields = 26 ∧ PartyMember_4_t.total_length = 60 ∧
    sumExtents PartyMember_5_t.fields = 27 ∧ PartyMember_5_t.total_length = 60 ∧
    sumExtents PartyMember_6_t.fields = 26 ∧ PartyMember_6_t.total_length = 60 ∧
    sumExtents PartyMember_7_t.fields = 26 ∧ PartyMember_7_t.total_length = 60 ∧
    sumExtents PartyMember_8_t.fields = 26 ∧ PartyMember_8_t.total_length = 60 ∧
    sumExtents PartyMember_9_t.fields = 26 ∧ PartyMember_9_t.total_length = 60 ∧
    sumExtents PartyMember_10_t.fields = 26 ∧ PartyMember_10_t.total_length = 60 ∧
    sumExtents PartyMember_11_t.fields = 26 ∧ PartyMember_11_t.total_length = 60 ∧
    sumExtents PartyMember_12_t.fields = 26 ∧ PartyMember_12_t.total_length = 60 ∧
    sumExtents Inventory_t.fields = 3 ∧ Inventory_t.total_length = 512 := by
  decide

/-- C10: the character records tile contiguously in RAM: each record is 60
bytes, the Hero base plus 60 is party member #2's base, each member's base
plus 60 is the next member's base, and member #12 sits at
`0x3961 + 10*60 = 0x3bb9`. -/
theorem base_addresses_tile :
    HERO_SIZE = 60 ∧ PARTYMEMBER_SIZE = 60 ∧
    HERO_BASE_ADDR + HERO_SIZE = PARTYMEMBER_BASE_ADDR 2 ∧
    PARTYMEMBER_BASE_ADDR 2 + PARTYMEMBER_SIZE = PARTYMEMBER_BASE_ADDR 3 ∧
    PARTYMEMBER_BASE_ADDR 3 + PARTYMEMBER_SIZE = PARTYMEMBER_BASE_ADDR 4 ∧
    PARTYMEMBER_BASE_ADDR 4 + PARTYMEMBER_SIZE = PARTYMEMBER_BASE_ADDR 5 ∧
    PARTYMEMBER_BASE_ADDR 5 + PARTYMEMBER_SIZE = PARTYMEMBER_BASE_ADDR 6 ∧
    PARTYMEMBER_BASE_ADDR 6 + PARTYMEMBER_SIZE = PARTYMEMBER_BASE_ADDR 7 ∧
    PARTYMEMBER_BASE_ADDR 7 + PARTYMEMBER_SIZE = PARTYMEMBER_BASE_ADDR 8 ∧
    PARTYMEMBER_BASE_ADDR 8 + PARTYMEMBER_SIZE = PARTYMEMBER_BASE_ADDR 9 ∧
    PARTYMEMBER_BASE_ADDR 9 + PARTYMEMBER_SIZE = PARTYMEMBER_BASE_ADDR 10 ∧
    PARTYMEMBER_BASE_ADDR 10 + PARTYMEMBER_SIZE = PARTYMEMBER_BASE_ADDR 11 ∧
    PARTYMEMBER_BASE_ADDR 11 + PARTYMEMBER_SIZE = PARTYMEMBER_BASE_ADDR 12 ∧
    PARTYMEMBER_BASE_ADDR 12 = 0x3961 + 10 * 60 := by
  decide
